import Mathlib

/-!
Shallow embedding of the `eh_codegen` repository's identifier-mapping engine,
database persistence pass, container encryption, incremental output writer
and schema loader, together with theorems settling the specification claims.

Conventions used throughout:
- Rust `BTreeMap`/`AHashMap` values are embedded as association lists
  (`List (k × v)`), since only `get`/`insert`/`entry` semantics are
  observable in the modelled code paths.
- Rust `AHashSet` values are embedded as `List` with `contains` membership;
  `insert` is a cons (only membership is ever observed).
- Rust panics and `Result` errors are embedded as `Option`/`none`.
- Machine integers (`i32`, `u32`, `u8`) are embedded as `Int`/`Nat` with
  explicit `% 2^w` where the source relies on wrapping behaviour.
-/

/-- Association list lookup, embedding `BTreeMap::get` / `HashMap::get`. -/
def alGet {κ α : Type} [DecidableEq κ] (l : List (κ × α)) (k : κ) :
    Option α :=
  match l with
  | [] => none
  | (k2, v) :: rest => if k2 = k then some v else alGet rest k

/-- Association list insert-or-replace, embedding `BTreeMap::insert`
(last write wins, other keys unchanged). -/
def alInsert {κ α : Type} [DecidableEq κ] (l : List (κ × α)) (k : κ)
    (v : α) : List (κ × α) :=
  match l with
  | [] => [(k, v)]
  | (k2, v2) :: rest =>
    if k2 = k then (k2, v) :: rest else (k2, v2) :: alInsert rest k v

theorem alGet_alInsert_self {κ α : Type} [DecidableEq κ] (l : List (κ × α))
    (k : κ) (v : α) : alGet (alInsert l k v) k = some v := by
  induction l with
  | nil => simp [alGet, alInsert]
  | cons hd tl ih =>
    obtain ⟨k2, v2⟩ := hd
    by_cases h : k2 = k <;> simp [alGet, alInsert, h, ih]

theorem alGet_alInsert_ne {κ α : Type} [DecidableEq κ] (l : List (κ × α))
    (k k2 : κ) (v : α) (h : k ≠ k2) :
    alGet (alInsert l k v) k2 = alGet l k2 := by
  induction l with
  | nil => simp [alGet, alInsert, h]
  | cons hd tl ih =>
    obtain ⟨k3, v3⟩ := hd
    by_cases h3 : k3 = k
    · subst h3
      simp [alGet, alInsert, h]
    · simp only [alInsert, if_neg h3, alGet]
      by_cases h4 : k3 = k2 <;> simp [h4, ih]

/-!
## Identifier mapping engine (`src/eh_mod_dev/src/mapping.rs`)

A half-open integer range `a..b` is embedded as the pair `(a, b)`; the
Rust `Range<i32>` iterator state (its mutable `start`) is the first
component.
-/

/-- State of `IdMapping` (mapping.rs, lines 16-23): per-kind key-to-id
table, used string keys, occupied numeric ids, available ranges, and the
shared default range list. -/
structure IdMapping where
  ids : List (String × List (String × Int))
  used_ids : List (String × List String)
  occupied_ids : List (String × List Int)
  available_ids : List (String × List (Int × Int))
  default_ids : List (Int × Int)
deriving DecidableEq

/-- Embeds `IdMapping::new` (mapping.rs 26-39): seeds the key table from the
persisted mapping and reconstructs `occupied_ids` from every persisted
numeric value; `used_ids` and the ranges start empty. -/
def IdMapping.ofSerialized (mappings : List (String × List (String × Int))) :
    IdMapping where
  ids := mappings
  used_ids := []
  occupied_ids := mappings.map (fun kv => (kv.1, kv.2.map Prod.snd))
  available_ids := []
  default_ids := []

/-- Embeds `IdMapping::add_id_range` (mapping.rs 49-54): pushes the range to
every existing per-kind range list and to the shared default list. -/
def IdMapping.addIdRange (m : IdMapping) (r : Int × Int) : IdMapping :=
  { m with
    available_ids := m.available_ids.map (fun kv => (kv.1, kv.2 ++ [r]))
    default_ids := m.default_ids ++ [r] }

/-- Embeds `IdMapping::add_id_range_for` (mapping.rs 57-62): the kind's
entry is created from a clone of the default list if absent, then the range
is pushed. -/
def IdMapping.addIdRangeFor (m : IdMapping) (kind : String) (r : Int × Int) :
    IdMapping :=
  let cur := (alGet m.available_ids kind).getD m.default_ids
  { m with available_ids := alInsert m.available_ids kind (cur ++ [r]) }

/-- Range lists the allocator would use for a kind: the kind's entry of
`available_ids`, falling back to `default_ids`
(the `entry(kind).or_insert_with(|| self.default_ids.clone())` pattern). -/
def IdMapping.rangesFor (m : IdMapping) (kind : String) : List (Int × Int) :=
  (alGet m.available_ids kind).getD m.default_ids

/-- Occupied numeric ids recorded for a kind. -/
def IdMapping.occupiedFor (m : IdMapping) (kind : String) : List Int :=
  (alGet m.occupied_ids kind).getD []

/-- Key-to-id table recorded for a kind. -/
def IdMapping.kindIds (m : IdMapping) (kind : String) : List (String × Int) :=
  (alGet m.ids kind).getD []

/-- Used string keys recorded for a kind. -/
def IdMapping.usedFor (m : IdMapping) (kind : String) : List String :=
  (alGet m.used_ids kind).getD []

/-- Embeds one step of `ids.iter_mut().find_map(|range| range.next())`
(mapping.rs 230): pops the first integer of the first non-empty range,
leaving exhausted ranges in place. -/
def rangesNext : List (Int × Int) → Option (Int × List (Int × Int))
  | [] => none
  | (a, b) :: rest =>
    if a < b then some (a, (a + 1, b) :: rest)
    else
      match rangesNext rest with
      | none => none
      | some (id, rest2) => some (id, (a, b) :: rest2)

/-- Total number of integers remaining in a range list (an upper bound on
the iterations of the allocation loop). -/
def totalSize (rs : List (Int × Int)) : Nat :=
  (rs.map (fun r => (r.2 - r.1).toNat)).sum

/-- Embeds the `while let Some(id) = ...` allocation loop of `next_id_raw`
(mapping.rs 230-236): draw ids front-to-back, skipping occupied ones; on
success the id is inserted into the occupied set. The loop consumes one
range element per iteration, so `totalSize` of the initial range list is
an exact fuel. -/
def drawFree : Nat → List (Int × Int) → List Int →
    Option (Int × List (Int × Int) × List Int)
  | 0, _, _ => none
  | fuel + 1, ranges, occ =>
    match rangesNext ranges with
    | none => none
    | some (id, ranges2) =>
      if occ.contains id then drawFree fuel ranges2 occ
      else some (id, ranges2, id :: occ)

/-- Embeds `IdMapping::next_id_raw` (mapping.rs 213-239). Returns `none`
where the source panics (no ranges configured, or all ids exhausted). -/
def IdMapping.nextIdRaw (m : IdMapping) (kind : String) :
    Option (Int × IdMapping) :=
  let ranges := m.rangesFor kind
  if ranges.isEmpty then none
  else
    let occ := m.occupiedFor kind
    match drawFree (totalSize ranges) ranges occ with
    | none => none
    | some (id, ranges2, occ2) =>
      some (id,
        { m with
          available_ids := alInsert m.available_ids kind ranges2
          occupied_ids := alInsert m.occupied_ids kind occ2 })

/-- Embeds `IdMapping::get_id_raw` (mapping.rs 76-93): reuse the existing
binding of the key if present, otherwise allocate a fresh id via
`next_id_raw` and record the binding. The `ids.entry(kind).or_default()`
insertion is reflected by writing the kind's (possibly empty) table back. -/
def IdMapping.getIdRaw (m : IdMapping) (kind key : String) :
    Option (Int × IdMapping) :=
  let table := m.kindIds kind
  let m1 : IdMapping := { m with ids := alInsert m.ids kind table }
  match alGet table key with
  | some id => some (id, m1)
  | none =>
    match m1.nextIdRaw kind with
    | none => none
    | some (id, m2) =>
      some (id,
        { m2 with ids := alInsert m2.ids kind (alInsert (m2.kindIds kind) key id) })

/-- Embeds `IdMapping::existing_id` (mapping.rs 106-121): panics (`none`)
unless the key is marked used for the kind; otherwise returns the recorded
binding (the `expect` calls on the lookup are `none` as well). -/
def IdMapping.existingId (m : IdMapping) (kind key : String) : Option Int :=
  if (m.usedFor kind).contains key then alGet (m.kindIds kind) key
  else none

/-- Embeds `IdMapping::new_id` (mapping.rs 126-140): panics (`none`) if the
key is already used for the kind; otherwise marks it used and delegates to
`get_id_raw`. -/
def IdMapping.newId (m : IdMapping) (kind key : String) :
    Option (Int × IdMapping) :=
  let used := m.usedFor kind
  if used.contains key then none
  else
    IdMapping.getIdRaw
      { m with used_ids := alInsert m.used_ids kind (key :: used) } kind key

/-- Embeds `IdMapping::is_used` (mapping.rs 142-146). -/
def IdMapping.isUsed (m : IdMapping) (kind key : String) : Bool :=
  (m.usedFor kind).contains key

/-- Embeds `IdMapping::set_id` (mapping.rs 149-167): forcibly binds the key
to the caller-chosen numeric id, marking the id occupied and the key used. -/
def IdMapping.setId (m : IdMapping) (kind key : String) (n : Int) : IdMapping :=
  { m with
    ids := alInsert m.ids kind (alInsert (m.kindIds kind) key n)
    occupied_ids := alInsert m.occupied_ids kind (n :: m.occupiedFor kind)
    used_ids := alInsert m.used_ids kind (key :: m.usedFor kind) }

/-- Membership of an integer in one half-open range. -/
def inRange (id : Int) (r : Int × Int) : Prop := r.1 ≤ id ∧ id < r.2

instance (id : Int) (r : Int × Int) : Decidable (inRange id r) := by
  unfold inRange; infer_instance

/-- Membership of an integer in some range of a range list. -/
def inRanges (id : Int) (rs : List (Int × Int)) : Prop :=
  ∃ r ∈ rs, inRange id r

instance (id : Int) (rs : List (Int × Int)) : Decidable (inRanges id rs) := by
  unfold inRanges; infer_instance

/-!
## Allocation-loop lemmas for the identifier mapping engine
-/

theorem totalSize_cons (r : Int × Int) (rs : List (Int × Int)) :
    totalSize (r :: rs) = (r.2 - r.1).toNat + totalSize rs := by
  simp [totalSize]

theorem inRanges_pos_totalSize {x : Int} {rs : List (Int × Int)}
    (h : inRanges x rs) : 0 < totalSize rs := by
  induction rs with
  | nil => obtain ⟨r, hr, _⟩ := h; simp at hr
  | cons hd tl ih =>
    obtain ⟨r, hr, hx⟩ := h
    rw [totalSize_cons]
    rcases List.mem_cons.mp hr with h1 | h1
    · subst h1
      obtain ⟨h1, h2⟩ := hx
      omega
    · have := ih ⟨r, h1, hx⟩
      omega

theorem rangesNext_none_not_mem {rs : List (Int × Int)}
    (h : rangesNext rs = none) : ∀ x, ¬inRanges x rs := by
  induction rs with
  | nil => intro x hx; obtain ⟨r, hr, _⟩ := hx; simp at hr
  | cons hd tl ih =>
    obtain ⟨a, b⟩ := hd
    intro x hx
    simp only [rangesNext] at h
    split at h
    · exact absurd h (by simp)
    · rename_i hab
      obtain ⟨r, hr, hxr⟩ := hx
      rcases List.mem_cons.mp hr with h1 | h1
      · subst h1; obtain ⟨h1, h2⟩ := hxr; omega
      · revert h
        match hnext : rangesNext tl with
        | none => exact fun _ => ih hnext x ⟨r, h1, hxr⟩
        | some (id, rest2) => intro h; exact absurd h (by simp)

theorem rangesNext_some_spec {rs rs2 : List (Int × Int)} {id : Int}
    (h : rangesNext rs = some (id, rs2)) :
    inRanges id rs ∧ totalSize rs = totalSize rs2 + 1 ∧
      (∀ x, inRanges x rs2 → inRanges x rs) ∧
      (∀ x, inRanges x rs → x = id ∨ inRanges x rs2) := by
  induction rs generalizing rs2 with
  | nil => simp [rangesNext] at h
  | cons hd tl ih =>
    obtain ⟨a, b⟩ := hd
    simp only [rangesNext] at h
    split at h
    · rename_i hab
      rw [Option.some_inj, Prod.mk.injEq] at h
      obtain ⟨hid, hrs2⟩ := h
      subst hid; subst hrs2
      refine ⟨⟨(a, b), by simp, le_refl a, hab⟩, ?_, ?_, ?_⟩
      · rw [totalSize_cons, totalSize_cons]
        simp only
        omega
      · intro x hx
        obtain ⟨r, hr, hxr⟩ := hx
        rcases List.mem_cons.mp hr with h1 | h1
        · subst h1
          exact ⟨(a, b), by simp, by obtain ⟨u, v⟩ := hxr; constructor <;> omega⟩
        · exact ⟨r, by simp [h1], hxr⟩
      · intro x hx
        obtain ⟨r, hr, hxr⟩ := hx
        rcases List.mem_cons.mp hr with h1 | h1
        · subst h1
          obtain ⟨u, v⟩ := hxr
          by_cases hxa : x = a
          · exact Or.inl hxa
          · exact Or.inr ⟨(a + 1, b), by simp, by omega, v⟩
        · exact Or.inr ⟨r, by simp [h1], hxr⟩
    · rename_i hab
      revert h
      match hnext : rangesNext tl with
      | none => intro h; exact absurd h (by simp)
      | some (id2, rest2) =>
        intro h
        rw [Option.some_inj, Prod.mk.injEq] at h
        obtain ⟨hid, hrs2⟩ := h
        subst hid; subst hrs2
        obtain ⟨s1, s2, s3, s4⟩ := ih hnext
        refine ⟨?_, ?_, ?_, ?_⟩
        · obtain ⟨r, hr, hxr⟩ := s1
          exact ⟨r, by simp [hr], hxr⟩
        · rw [totalSize_cons, totalSize_cons]
          omega
        · intro x hx
          obtain ⟨r, hr, hxr⟩ := hx
          rcases List.mem_cons.mp hr with h1 | h1
          · subst h1; exact ⟨(a, b), by simp, hxr⟩
          · obtain ⟨r2, hr2, hxr2⟩ := s3 x ⟨r, h1, hxr⟩
            exact ⟨r2, by simp [hr2], hxr2⟩
        · intro x hx
          obtain ⟨r, hr, hxr⟩ := hx
          rcases List.mem_cons.mp hr with h1 | h1
          · subst h1
            exact Or.inr ⟨(a, b), by simp, hxr⟩
          · rcases s4 x ⟨r, h1, hxr⟩ with h2 | h2
            · exact Or.inl h2
            · obtain ⟨r2, hr2, hxr2⟩ := h2
              exact Or.inr ⟨r2, by simp [hr2], hxr2⟩

theorem drawFree_spec {fuel : Nat} {rs : List (Int × Int)} {occ : List Int}
    (hfuel : totalSize rs ≤ fuel) {x0 : Int} (hx0 : inRanges x0 rs)
    (hx0f : x0 ∉ occ) :
    ∃ id rs2 occ2, drawFree fuel rs occ = some (id, rs2, occ2) ∧
      inRanges id rs ∧ id ∉ occ ∧ occ2 = id :: occ ∧
      (∀ x, inRanges x rs2 → inRanges x rs) ∧
      (∀ x, inRanges x rs → x ∉ occ → x = id ∨ inRanges x rs2) := by
  induction fuel generalizing rs with
  | zero =>
    have := inRanges_pos_totalSize hx0
    omega
  | succ fuel ih =>
    match hnext : rangesNext rs with
    | none => exact absurd hx0 (rangesNext_none_not_mem hnext x0)
    | some (id, rs2) =>
      obtain ⟨s1, s2, s3, s4⟩ := rangesNext_some_spec hnext
      by_cases hocc : id ∈ occ
      · have hx0ne : x0 ≠ id := fun h => hx0f (h ▸ hocc)
        have hx0' : inRanges x0 rs2 := by
          rcases s4 x0 hx0 with h | h
          · exact absurd h hx0ne
          · exact h
        have hfuel2 : totalSize rs2 ≤ fuel := by omega
        obtain ⟨id2, rs3, occ2, d1, d2, d3, d4, d5, d6⟩ := ih hfuel2 hx0'
        refine ⟨id2, rs3, occ2, ?_, s3 id2 d2, d3, d4, fun x hx => s3 x (d5 x hx), ?_⟩
        · simp only [drawFree, hnext]
          rw [if_pos (List.elem_iff.mpr hocc)]
          exact d1
        · intro x hx hxocc
          have hxne : x ≠ id := fun h => hxocc (h ▸ hocc)
          rcases s4 x hx with h | h
          · exact absurd h hxne
          · exact d6 x h hxocc
      · refine ⟨id, rs2, id :: occ, ?_, s1, hocc, rfl, s3, fun x hx _ => s4 x hx⟩
        simp only [drawFree, hnext]
        rw [if_neg (by simpa using hocc)]

/-- Set of integers covered by a list of half-open ranges. -/
def rangeFinset (rs : List (Int × Int)) : Finset Int :=
  rs.foldr (fun r acc => Finset.Ico r.1 r.2 ∪ acc) ∅

theorem mem_rangeFinset {x : Int} {rs : List (Int × Int)} :
    x ∈ rangeFinset rs ↔ inRanges x rs := by
  induction rs with
  | nil => simp [rangeFinset, inRanges]
  | cons hd tl ih =>
    simp only [rangeFinset, List.foldr_cons, Finset.mem_union, Finset.mem_Ico]
    rw [show (List.foldr (fun r acc => Finset.Ico r.1 r.2 ∪ acc) ∅ tl) =
        rangeFinset tl from rfl, ih]
    constructor
    · rintro (h | ⟨r, hr, hxr⟩)
      · exact ⟨hd, by simp, h⟩
      · exact ⟨r, by simp [hr], hxr⟩
    · rintro ⟨r, hr, hxr⟩
      rcases List.mem_cons.mp hr with h1 | h1
      · exact Or.inl (h1 ▸ hxr)
      · exact Or.inr ⟨r, h1, hxr⟩

/-- Free identifiers: integers covered by the ranges and not occupied. -/
def freeFinset (rs : List (Int × Int)) (occ : List Int) : Finset Int :=
  rangeFinset rs \ occ.toFinset

theorem mem_freeFinset {x : Int} {rs : List (Int × Int)} {occ : List Int} :
    x ∈ freeFinset rs occ ↔ inRanges x rs ∧ x ∉ occ := by
  simp [freeFinset, mem_rangeFinset]

/-- Behaviour of `get_id_raw` on a key with no existing binding, when a free
identifier exists: the returned id is drawn from the kind's ranges, was not
occupied, becomes occupied, and the key is bound to it; ranges only shrink,
and only free ids other than the returned one are required to survive. -/
theorem getIdRaw_fresh_spec {m : IdMapping} {K key : String}
    (hfresh : alGet (m.kindIds K) key = none)
    {x0 : Int} (hx0 : inRanges x0 (m.rangesFor K))
    (hx0f : x0 ∉ m.occupiedFor K) :
    ∃ id m3, m.getIdRaw K key = some (id, m3) ∧
      inRanges id (m.rangesFor K) ∧ id ∉ m.occupiedFor K ∧
      m3.occupiedFor K = id :: m.occupiedFor K ∧
      (∀ x, inRanges x (m3.rangesFor K) → inRanges x (m.rangesFor K)) ∧
      (∀ x, inRanges x (m.rangesFor K) → x ∉ m.occupiedFor K →
        x = id ∨ inRanges x (m3.rangesFor K)) ∧
      m3.kindIds K = alInsert (m.kindIds K) key id ∧
      m3.used_ids = m.used_ids := by
  have hne : (m.rangesFor K).isEmpty = false := by
    obtain ⟨r, hr, _⟩ := hx0
    cases hrs : m.rangesFor K with
    | nil => rw [hrs] at hr; simp at hr
    | cons a b => rfl
  obtain ⟨id, rs2, occ2, d1, d2, d3, d4, d5, d6⟩ :=
    drawFree_spec (le_refl (totalSize (m.rangesFor K))) hx0 hx0f
  set m1 : IdMapping := { m with ids := alInsert m.ids K (m.kindIds K) } with hm1
  have hm1r : m1.rangesFor K = m.rangesFor K := rfl
  have hm1o : m1.occupiedFor K = m.occupiedFor K := rfl
  set m2 : IdMapping :=
    { m1 with
      available_ids := alInsert m1.available_ids K rs2
      occupied_ids := alInsert m1.occupied_ids K occ2 } with hm2
  have hnext : m1.nextIdRaw K = some (id, m2) := by
    simp only [IdMapping.nextIdRaw, hm1r, hm1o, hne, Bool.false_eq_true,
      if_false, d1]
  set m3 : IdMapping :=
    { m2 with ids := alInsert m2.ids K (alInsert (m2.kindIds K) key id) }
    with hm3
  have hm2k : m2.kindIds K = m.kindIds K := by
    simp only [hm2, hm1, IdMapping.kindIds, alGet_alInsert_self]
    rfl
  have hget : m.getIdRaw K key = some (id, m3) := by
    simp only [IdMapping.getIdRaw, hfresh, hnext]
  have hm3r : m3.rangesFor K = rs2 := by
    simp only [hm3, hm2, IdMapping.rangesFor, alGet_alInsert_self]
    rfl
  have hm3o : m3.occupiedFor K = id :: m.occupiedFor K := by
    have h0 : m3.occupiedFor K = occ2 := by
      simp only [hm3, hm2, IdMapping.occupiedFor, alGet_alInsert_self]
      rfl
    rw [h0, d4]
  have hm3k : m3.kindIds K = alInsert (m.kindIds K) key id := by
    simp only [hm3, IdMapping.kindIds, alGet_alInsert_self, hm2k]
    rfl
  exact ⟨id, m3, hget, d2, d3, hm3o, fun x hx => d5 x (hm3r ▸ hx),
    fun x hx hxo => (d6 x hx hxo).imp (fun h => h) (fun h => hm3r ▸ h),
    hm3k, rfl⟩

/-- Same specification for `new_id` on a key not yet marked used; in
addition the key becomes used. -/
theorem newId_fresh_spec {m : IdMapping} {K key : String}
    (hused : key ∉ m.usedFor K)
    (hfresh : alGet (m.kindIds K) key = none)
    {x0 : Int} (hx0 : inRanges x0 (m.rangesFor K))
    (hx0f : x0 ∉ m.occupiedFor K) :
    ∃ id m3, m.newId K key = some (id, m3) ∧
      inRanges id (m.rangesFor K) ∧ id ∉ m.occupiedFor K ∧
      m3.occupiedFor K = id :: m.occupiedFor K ∧
      (∀ x, inRanges x (m3.rangesFor K) → inRanges x (m.rangesFor K)) ∧
      (∀ x, inRanges x (m.rangesFor K) → x ∉ m.occupiedFor K →
        x = id ∨ inRanges x (m3.rangesFor K)) ∧
      m3.kindIds K = alInsert (m.kindIds K) key id ∧
      m3.usedFor K = key :: m.usedFor K := by
  set mu : IdMapping :=
    { m with used_ids := alInsert m.used_ids K (key :: m.usedFor K) } with hmu
  have h1 : m.newId K key = mu.getIdRaw K key := by
    simp only [IdMapping.newId]
    rw [if_neg (by simpa using hused)]
  have hmuk : mu.kindIds K = m.kindIds K := rfl
  have hmur : mu.rangesFor K = m.rangesFor K := rfl
  have hmuo : mu.occupiedFor K = m.occupiedFor K := rfl
  obtain ⟨id, m3, g1, g2, g3, g4, g5, g6, g7, g8⟩ :=
    @getIdRaw_fresh_spec mu K key (hmuk ▸ hfresh) x0 hx0 hx0f
  refine ⟨id, m3, h1 ▸ g1, g2, g3, g4, g5, g6, hmuk ▸ g7, ?_⟩
  have : m3.usedFor K = mu.usedFor K := by
    simp only [IdMapping.usedFor, g8]
  rw [this]
  simp only [hmu, IdMapping.usedFor, alGet_alInsert_self]
  rfl

/-- A sequence of allocations against one kind: each request is served via
`new_id` (flag `true`) or `get_id_raw` (flag `false`), threading the
mapping state; `none` if any call panics. -/
def allocList (m : IdMapping) (kind : String) :
    List (Bool × String) → Option (List Int × IdMapping)
  | [] => some ([], m)
  | (viaNew, key) :: rest =>
    match (if viaNew then m.newId kind key else m.getIdRaw kind key) with
    | none => none
    | some (id, m2) =>
      match allocList m2 kind rest with
      | none => none
      | some (out, m3) => some (id :: out, m3)

/-- Core allocation invariant: with enough free identifiers, a sequence of
allocations with pairwise-distinct unbound keys succeeds, the returned ids
are pairwise distinct, drawn from the kind's ranges, not previously
occupied, and all recorded as occupied afterwards. -/
theorem allocList_general {K : String} :
    ∀ (reqs : List (Bool × String)) (m : IdMapping),
      (reqs.map Prod.snd).Nodup →
      (∀ r ∈ reqs, alGet (m.kindIds K) r.2 = none) →
      (∀ r ∈ reqs, r.1 = true → r.2 ∉ m.usedFor K) →
      reqs.length ≤ (freeFinset (m.rangesFor K) (m.occupiedFor K)).card →
      ∃ out m2, allocList m K reqs = some (out, m2) ∧ out.Nodup ∧
        (∀ id ∈ out, inRanges id (m.rangesFor K) ∧ id ∉ m.occupiedFor K) ∧
        (∀ id ∈ out, id ∈ m2.occupiedFor K) ∧
        (∀ x ∈ m.occupiedFor K, x ∈ m2.occupiedFor K) := by
  intro reqs
  induction reqs with
  | nil =>
    intro m _ _ _ _
    exact ⟨[], m, rfl, List.nodup_nil, by simp, by simp, fun x hx => hx⟩
  | cons hd rest ih =>
    obtain ⟨flag, key⟩ := hd
    intro m hnd hfresh hunused hcount
    have hcard : 0 < (freeFinset (m.rangesFor K) (m.occupiedFor K)).card := by
      simp only [List.length_cons] at hcount
      omega
    obtain ⟨x0, hx0mem⟩ := Finset.card_pos.mp hcard
    obtain ⟨hx0, hx0f⟩ := mem_freeFinset.mp hx0mem
    have hkfresh : alGet (m.kindIds K) key = none :=
      hfresh (flag, key) (by simp)
    have hstep : ∃ id m3,
        (if flag then m.newId K key else m.getIdRaw K key) = some (id, m3) ∧
        inRanges id (m.rangesFor K) ∧ id ∉ m.occupiedFor K ∧
        m3.occupiedFor K = id :: m.occupiedFor K ∧
        (∀ x, inRanges x (m3.rangesFor K) → inRanges x (m.rangesFor K)) ∧
        (∀ x, inRanges x (m.rangesFor K) → x ∉ m.occupiedFor K →
          x = id ∨ inRanges x (m3.rangesFor K)) ∧
        m3.kindIds K = alInsert (m.kindIds K) key id ∧
        (∀ k2, k2 ≠ key → k2 ∉ m.usedFor K → k2 ∉ m3.usedFor K) := by
      cases flag with
      | true =>
        have hku : key ∉ m.usedFor K :=
          hunused (true, key) (by simp) rfl
        obtain ⟨id, m3, g1, g2, g3, g4, g5, g6, g7, g8⟩ :=
          newId_fresh_spec hku hkfresh hx0 hx0f
        exact ⟨id, m3, by simpa using g1, g2, g3, g4, g5, g6, g7,
          fun k2 hne hold => by
            rw [g8]
            simp only [List.mem_cons]
            rintro (h | h)
            · exact hne h
            · exact hold h⟩
      | false =>
        obtain ⟨id, m3, g1, g2, g3, g4, g5, g6, g7, g8⟩ :=
          getIdRaw_fresh_spec hkfresh hx0 hx0f
        refine ⟨id, m3, by simpa using g1, g2, g3, g4, g5, g6, g7,
          fun k2 _ hold => ?_⟩
        have : m3.usedFor K = m.usedFor K := by
          simp only [IdMapping.usedFor, g8]
        rw [this]; exact hold
    obtain ⟨id, m3, s1, s2, s3, s4, s5, s6, s7, s8⟩ := hstep
    have hkeyne : ∀ r ∈ rest, r.2 ≠ key := by
      intro r hr
      have := hnd
      simp only [List.map_cons, List.nodup_cons] at this
      exact fun h => this.1 (h ▸ List.mem_map_of_mem Prod.snd hr)
    have hsub : (freeFinset (m.rangesFor K) (m.occupiedFor K)).erase id ⊆
        freeFinset (m3.rangesFor K) (m3.occupiedFor K) := by
      intro x hx
      obtain ⟨hxne, hxmem⟩ := Finset.mem_erase.mp hx
      obtain ⟨hxr, hxo⟩ := mem_freeFinset.mp hxmem
      rcases s6 x hxr hxo with h | h
      · exact absurd h hxne
      · refine mem_freeFinset.mpr ⟨h, ?_⟩
        rw [s4]
        simp only [List.mem_cons]
        rintro (h2 | h2)
        · exact hxne h2
        · exact hxo h2
    have hidfree : id ∈ freeFinset (m.rangesFor K) (m.occupiedFor K) :=
      mem_freeFinset.mpr ⟨s2, s3⟩
    have hcount3 : rest.length ≤
        (freeFinset (m3.rangesFor K) (m3.occupiedFor K)).card := by
      have h1 := Finset.card_le_card hsub
      rw [Finset.card_erase_of_mem hidfree] at h1
      simp only [List.length_cons] at hcount
      omega
    obtain ⟨out, m2, i1, i2, i3, i4, i5⟩ := ih m3
      (by simpa using (List.nodup_cons.mp (by simpa using hnd)).2)
      (fun r hr => by
        rw [s7, alGet_alInsert_ne _ _ _ _ (fun h => hkeyne r hr h.symm)]
        exact hfresh r (by simp [hr]))
      (fun r hr hflag =>
        s8 r.2 (hkeyne r hr) (hunused r (by simp [hr]) hflag))
      hcount3
    have hocc3 : ∀ x ∈ m.occupiedFor K, x ∈ m3.occupiedFor K := by
      intro x hx; rw [s4]; exact List.mem_cons_of_mem id hx
    refine ⟨id :: out, m2, ?_, ?_, ?_, ?_, fun x hx => i5 x (hocc3 x hx)⟩
    · simp only [allocList, s1, i1]
    · rw [List.nodup_cons]
      refine ⟨fun hmem => ?_, i2⟩
      have := i3 id hmem
      exact this.2 (by rw [s4]; exact List.mem_cons_self id _)
    · intro id2 hid2
      rcases List.mem_cons.mp hid2 with h | h
      · exact h ▸ ⟨s2, s3⟩
      · obtain ⟨h1, h2⟩ := i3 id2 h
        refine ⟨s5 id2 h1, fun hmem => h2 (hocc3 id2 hmem)⟩
    · intro id2 hid2
      rcases List.mem_cons.mp hid2 with h | h
      · subst h
        exact i5 id2 (by rw [s4]; exact List.mem_cons_self id2 _)
      · exact i4 id2 h

/-- Claim C1: for every kind and every set of available ranges disjoint from
the already-occupied ids, any sequence of allocations through `new_id`
(flag `true`) or `get_id_raw` (flag `false`) with pairwise-distinct unbound
keys, whose length does not exceed the total count of integers in the
ranges, succeeds and returns pairwise-distinct numeric ids, each lying
within one of the ranges and none equal to an id in the occupied set at the
start (together with pairwise distinctness this covers occupancy at each
allocation's time, since the occupied set only grows). -/
theorem mapping_alloc_distinct_in_range (m : IdMapping) (K : String)
    (reqs : List (Bool × String))
    (hnd : (reqs.map Prod.snd).Nodup)
    (hfresh : ∀ r ∈ reqs, alGet (m.kindIds K) r.2 = none)
    (hunused : ∀ r ∈ reqs, r.1 = true → r.2 ∉ m.usedFor K)
    (hdisj : ∀ x, inRanges x (m.rangesFor K) → x ∉ m.occupiedFor K)
    (hcount : reqs.length ≤ (rangeFinset (m.rangesFor K)).card) :
    ∃ out m2, allocList m K reqs = some (out, m2) ∧ out.Nodup ∧
      ∀ id ∈ out, inRanges id (m.rangesFor K) ∧ id ∉ m.occupiedFor K := by
  have hfree : freeFinset (m.rangesFor K) (m.occupiedFor K) =
      rangeFinset (m.rangesFor K) := by
    apply Finset.sdiff_eq_self_of_disjoint
    rw [Finset.disjoint_left]
    intro x hx hx2
    exact hdisj x (mem_rangeFinset.mp hx) (by simpa using hx2)
  obtain ⟨out, m2, h1, h2, h3, _, _⟩ :=
    allocList_general reqs m hnd hfresh hunused (by rw [hfree]; exact hcount)
  exact ⟨out, m2, h1, h2, h3⟩

/-- Witness for C1: a concrete empty mapping with range `0..3`, allocating
keys `a` via `new_id` and `b` via `get_id_raw`. -/
theorem mapping_alloc_distinct_in_range_witness :
    ∃ out m2,
      allocList ((IdMapping.ofSerialized []).addIdRange (0, 3)) "Quest"
        [(true, "a"), (false, "b")] = some (out, m2) ∧ out.Nodup ∧
      ∀ id ∈ out,
        inRanges id
          (((IdMapping.ofSerialized []).addIdRange (0, 3)).rangesFor "Quest") ∧
        id ∉ ((IdMapping.ofSerialized []).addIdRange (0, 3)).occupiedFor
          "Quest" :=
  mapping_alloc_distinct_in_range _ "Quest" _
    (by decide)
    (by decide)
    (by decide)
    (fun x _ hx => by simp [IdMapping.ofSerialized, IdMapping.addIdRange,
      IdMapping.occupiedFor, alGet] at hx)
    (by
      have : rangeFinset
          (((IdMapping.ofSerialized []).addIdRange (0, 3)).rangesFor "Quest")
          = Finset.Ico (0 : Int) 3 := by
        simp [IdMapping.ofSerialized, IdMapping.addIdRange,
          IdMapping.rangesFor, alGet, rangeFinset]
      rw [this]
      simp)

/-- Unconditional success facts of the allocation loop: the drawn id was not
occupied, and the occupied set grows by exactly that id. -/
theorem drawFree_some_spec {fuel : Nat} {rs rs2 : List (Int × Int)}
    {occ occ2 : List Int} {id : Int}
    (h : drawFree fuel rs occ = some (id, rs2, occ2)) :
    id ∉ occ ∧ occ2 = id :: occ := by
  induction fuel generalizing rs with
  | zero => simp [drawFree] at h
  | succ fuel ih =>
    simp only [drawFree] at h
    split at h
    · exact absurd h (by simp)
    · split at h
      · exact ih h
      · rename_i hocc
        rw [Option.some_inj, Prod.mk.injEq, Prod.mk.injEq] at h
        obtain ⟨h1, _, h3⟩ := h
        subst h1
        exact ⟨fun hmem => hocc (List.elem_iff.mpr hmem), h3.symm⟩

/-- Success facts of `next_id_raw`: the returned id was not occupied for the
kind, the kind's occupied set grows by exactly that id, other kinds'
occupied sets are untouched, and neither the key table nor the used-key
table changes. -/
theorem nextIdRaw_some_spec {m m2 : IdMapping} {K : String} {id : Int}
    (h : m.nextIdRaw K = some (id, m2)) :
    id ∉ m.occupiedFor K ∧ m2.occupiedFor K = id :: m.occupiedFor K ∧
      (∀ K2, K2 ≠ K → m2.occupiedFor K2 = m.occupiedFor K2) ∧
      m2.used_ids = m.used_ids ∧ m2.ids = m.ids := by
  simp only [IdMapping.nextIdRaw] at h
  split at h
  · exact absurd h (by simp)
  · revert h
    match hdraw : drawFree (totalSize (m.rangesFor K)) (m.rangesFor K)
        (m.occupiedFor K) with
    | none => intro h; exact absurd h (by simp)
    | some (id1, rsA, occA) =>
      intro h
      rw [Option.some_inj, Prod.mk.injEq] at h
      obtain ⟨h1, h2⟩ := h
      subst h1
      obtain ⟨d1, d2⟩ := drawFree_some_spec hdraw
      refine ⟨d1, ?_, ?_, ?_, ?_⟩
      · rw [← h2]
        simp only [IdMapping.occupiedFor, alGet_alInsert_self]
        exact d2
      · intro K2 hne
        rw [← h2]
        simp only [IdMapping.occupiedFor,
          alGet_alInsert_ne _ _ _ _ (fun hh => hne hh.symm)]
      · rw [← h2]
      · rw [← h2]

/-- Success facts of `get_id_raw`: occupied sets only grow (for every
kind), a call on an unbound key returns an id that was not occupied, and
the used-key table never changes. -/
theorem getIdRaw_some_spec {m m2 : IdMapping} {K key : String} {id : Int}
    (h : m.getIdRaw K key = some (id, m2)) :
    (∀ K2 x, x ∈ m.occupiedFor K2 → x ∈ m2.occupiedFor K2) ∧
      (alGet (m.kindIds K) key = none → id ∉ m.occupiedFor K) ∧
      m2.used_ids = m.used_ids := by
  simp only [IdMapping.getIdRaw] at h
  revert h
  match hlook : alGet (m.kindIds K) key with
  | some id0 =>
    intro h
    rw [Option.some_inj, Prod.mk.injEq] at h
    obtain ⟨h1, h2⟩ := h
    subst h1
    refine ⟨?_, fun hn => by simp [hlook] at hn, ?_⟩
    · intro K2 x hx
      rw [← h2]
      exact hx
    · rw [← h2]
  | none =>
    intro h
    revert h
    match hnext : IdMapping.nextIdRaw
        { m with ids := alInsert m.ids K (m.kindIds K) } K with
    | none => intro h; exact absurd h (by simp)
    | some (id1, mA) =>
      intro h
      rw [Option.some_inj, Prod.mk.injEq] at h
      obtain ⟨h1, h2⟩ := h
      subst h1
      obtain ⟨n1, n2, n3, n4, _⟩ := nextIdRaw_some_spec hnext
      have hAocc : ∀ K2, IdMapping.occupiedFor
          { m with ids := alInsert m.ids K (m.kindIds K) } K2 =
          m.occupiedFor K2 := fun _ => rfl
      have hm2occ : ∀ K2, m2.occupiedFor K2 = mA.occupiedFor K2 := by
        intro K2
        rw [← h2]
        rfl
      refine ⟨?_, fun _ => by rw [← hAocc K]; exact n1, ?_⟩
      · intro K2 x hx
        rw [hm2occ K2]
        by_cases hK2 : K2 = K
        · subst hK2
          rw [n2, hAocc K2]
          exact List.mem_cons_of_mem _ hx
        · rw [n3 K2 hK2, hAocc K2]
          exact hx
      · rw [← h2]
        exact n4

/-- Success facts of `new_id`: the key was not used, becomes used, occupied
sets only grow, a call on an unbound key returns an id that was not
occupied, and the whole used-key table is updated at the kind only. -/
theorem newId_some_spec {m m2 : IdMapping} {K key : String} {id : Int}
    (h : m.newId K key = some (id, m2)) :
    key ∉ m.usedFor K ∧
      (∀ K2 x, x ∈ m.occupiedFor K2 → x ∈ m2.occupiedFor K2) ∧
      (alGet (m.kindIds K) key = none → id ∉ m.occupiedFor K) ∧
      m2.used_ids = alInsert m.used_ids K (key :: m.usedFor K) := by
  simp only [IdMapping.newId] at h
  split at h
  · exact absurd h (by simp)
  · rename_i hused
    obtain ⟨g1, g2, g3⟩ := getIdRaw_some_spec h
    exact ⟨fun hmem => hused (List.elem_iff.mpr hmem), g1, g2, g3⟩

/-- State effect of `set_id` on the per-kind views. -/
theorem setId_spec (m : IdMapping) (K key : String) (n : Int) :
    (m.setId K key n).occupiedFor K = n :: m.occupiedFor K ∧
      (∀ K2, K2 ≠ K → (m.setId K key n).occupiedFor K2 = m.occupiedFor K2) ∧
      (m.setId K key n).usedFor K = key :: m.usedFor K ∧
      (∀ K2, K2 ≠ K → (m.setId K key n).usedFor K2 = m.usedFor K2) ∧
      alGet ((m.setId K key n).kindIds K) key = some n := by
  refine ⟨?_, ?_, ?_, ?_, ?_⟩
  · simp only [IdMapping.setId, IdMapping.occupiedFor, alGet_alInsert_self,
      Option.getD_some]
  · intro K2 hne
    simp only [IdMapping.setId, IdMapping.occupiedFor,
      alGet_alInsert_ne _ _ _ _ (fun hh => hne hh.symm)]
  · simp only [IdMapping.setId, IdMapping.usedFor, alGet_alInsert_self,
      Option.getD_some]
  · intro K2 hne
    simp only [IdMapping.setId, IdMapping.usedFor,
      alGet_alInsert_ne _ _ _ _ (fun hh => hne hh.symm)]
  · simp only [IdMapping.setId, IdMapping.kindIds, alGet_alInsert_self,
      Option.getD_some, alGet_alInsert_self]

/-!
## Operation traces over the identifier mapping

A run of a build script against the mapping is a list of operations; the
trace records, for `new_id`/`get_id_raw` calls, the returned numeric id
together with a flag telling whether the id was freshly allocated (the key
had no binding at call time) rather than read back from an existing
binding.
-/

/-- One public mapping operation. -/
inductive MapOp where
  | addRange (r : Int × Int)
  | addRangeFor (kind : String) (r : Int × Int)
  | newIdOp (kind key : String)
  | getIdRawOp (kind key : String)
  | setIdOp (kind key : String) (n : Int)
deriving DecidableEq

/-- Effect of one operation; `none` embeds a panic. The optional result is
the returned id paired with the freshly-allocated flag. -/
def stepOp (m : IdMapping) : MapOp → Option (Option (Int × Bool) × IdMapping)
  | .addRange r => some (none, m.addIdRange r)
  | .addRangeFor k r => some (none, m.addIdRangeFor k r)
  | .newIdOp kind key =>
    match m.newId kind key with
    | none => none
    | some (v, m2) => some (some (v, (alGet (m.kindIds kind) key).isNone), m2)
  | .getIdRawOp kind key =>
    match m.getIdRaw kind key with
    | none => none
    | some (v, m2) => some (some (v, (alGet (m.kindIds kind) key).isNone), m2)
  | .setIdOp kind key n => some (none, m.setId kind key n)

/-- Runs a list of operations, collecting the trace of results. -/
def runOps (m : IdMapping) :
    List MapOp → Option (List (MapOp × Option (Int × Bool)) × IdMapping)
  | [] => some ([], m)
  | op :: rest =>
    match stepOp m op with
    | none => none
    | some (res, m2) =>
      match runOps m2 rest with
      | none => none
      | some (tr, m3) => some ((op, res) :: tr, m3)

/-- Any successful operation step preserves membership in every kind's
occupied-id set. -/
theorem stepOp_occupied_mono {m m2 : IdMapping} {op : MapOp}
    {res : Option (Int × Bool)} (h : stepOp m op = some (res, m2)) :
    ∀ K x, x ∈ m.occupiedFor K → x ∈ m2.occupiedFor K := by
  intro K x hx
  cases op with
  | addRange r =>
    simp only [stepOp, Option.some_inj, Prod.mk.injEq] at h
    rw [← h.2]
    exact hx
  | addRangeFor k r =>
    simp only [stepOp, Option.some_inj, Prod.mk.injEq] at h
    rw [← h.2]
    exact hx
  | newIdOp kind key =>
    simp only [stepOp] at h
    split at h
    · exact absurd h (by simp)
    · rename_i v mA heq
      rw [Option.some_inj, Prod.mk.injEq] at h
      rw [← h.2]
      exact (newId_some_spec heq).2.1 K x hx
  | getIdRawOp kind key =>
    simp only [stepOp] at h
    split at h
    · exact absurd h (by simp)
    · rename_i v mA heq
      rw [Option.some_inj, Prod.mk.injEq] at h
      rw [← h.2]
      exact (getIdRaw_some_spec heq).1 K x hx
  | setIdOp kind key n =>
    simp only [stepOp, Option.some_inj, Prod.mk.injEq] at h
    rw [← h.2]
    by_cases hK : K = kind
    · subst hK
      rw [(setId_spec m K key n).1]
      exact List.mem_cons_of_mem _ hx
    · rw [(setId_spec m kind key n).2.1 K (by exact hK)]
      exact hx

/-- A freshly-allocated id reported in a step for kind `K` is never an id
that was occupied for `K` when the step ran. -/
theorem stepOp_fresh_avoids_occupied {m m2 : IdMapping} {op : MapOp}
    {res : Option (Int × Bool)} (h : stepOp m op = some (res, m2))
    {K key : String} {v : Int}
    (hop : op = .newIdOp K key ∨ op = .getIdRawOp K key)
    (hres : res = some (v, true)) {n : Int} (hn : n ∈ m.occupiedFor K) :
    v ≠ n := by
  rcases hop with hop | hop
  · subst hop
    simp only [stepOp] at h
    split at h
    · exact absurd h (by simp)
    · rename_i v2 mA heq
      rw [Option.some_inj, Prod.mk.injEq] at h
      obtain ⟨h1, _⟩ := h
      rw [hres] at h1
      rw [Option.some_inj, Prod.mk.injEq] at h1
      obtain ⟨hv, hfreshb⟩ := h1
      have hfresh : alGet (m.kindIds K) key = none :=
        Option.isNone_iff_eq_none.mp hfreshb
      have := (newId_some_spec heq).2.2.1 hfresh
      intro heq2
      exact this (hv ▸ heq2 ▸ hn)
  · subst hop
    simp only [stepOp] at h
    split at h
    · exact absurd h (by simp)
    · rename_i v2 mA heq
      rw [Option.some_inj, Prod.mk.injEq] at h
      obtain ⟨h1, _⟩ := h
      rw [hres] at h1
      rw [Option.some_inj, Prod.mk.injEq] at h1
      obtain ⟨hv, hfreshb⟩ := h1
      have hfresh : alGet (m.kindIds K) key = none :=
        Option.isNone_iff_eq_none.mp hfreshb
      have := (getIdRaw_some_spec heq).2.1 hfresh
      intro heq2
      exact this (hv ▸ heq2 ▸ hn)

/-- Run-level invariant: once an id is occupied for a kind, no later freshly
allocated id reported in the trace for that kind equals it. -/
theorem runOps_fresh_avoids_occupied {K : String} {n : Int} :
    ∀ (ops : List MapOp) (m : IdMapping)
      (tr : List (MapOp × Option (Int × Bool))) (m2 : IdMapping),
      n ∈ m.occupiedFor K → runOps m ops = some (tr, m2) →
      ∀ (op : MapOp) (v : Int), (op, some (v, true)) ∈ tr →
        (∃ key, op = .newIdOp K key ∨ op = .getIdRawOp K key) → v ≠ n := by
  intro ops
  induction ops with
  | nil =>
    intro m tr m2 hn hrun op v hmem _
    simp only [runOps, Option.some_inj, Prod.mk.injEq] at hrun
    rw [← hrun.1] at hmem
    simp at hmem
  | cons op0 rest ih =>
    intro m tr m2 hn hrun op v hmem hop
    simp only [runOps] at hrun
    split at hrun
    · exact absurd hrun (by simp)
    · rename_i res mA hstep
      split at hrun
      · exact absurd hrun (by simp)
      · rename_i trA mB hrest
        rw [Option.some_inj, Prod.mk.injEq] at hrun
        obtain ⟨htr, hm2⟩ := hrun
        rw [← htr] at hmem
        rcases List.mem_cons.mp hmem with hmem | hmem
        · rw [Prod.mk.injEq] at hmem
          obtain ⟨hopeq, hreseq⟩ := hmem
          obtain ⟨key, hop⟩ := hop
          exact stepOp_fresh_avoids_occupied hstep (hopeq ▸ hop)
            hreseq.symm hn
        · exact ih mA trA mB (stepOp_occupied_mono hstep K n hn) hrest
            op v hmem hop

/-- Claim C2: after `set_id(K, x, n)`, `existing_id(K, x)` returns `n`, and
no later freshly allocated id (`new_id` or `get_id_raw` on a key with no
existing binding) for kind `K` equals `n`, whatever operations — including
adding ranges that contain `n` — run in between. -/
theorem setId_pins_and_blocks_reallocation (m : IdMapping) (K x : String)
    (n : Int) (ops : List MapOp) (tr : List (MapOp × Option (Int × Bool)))
    (m2 : IdMapping) (hrun : runOps (m.setId K x n) ops = some (tr, m2)) :
    (m.setId K x n).existingId K x = some n ∧
      ∀ (op : MapOp) (v : Int), (op, some (v, true)) ∈ tr →
        (∃ key, op = .newIdOp K key ∨ op = .getIdRawOp K key) → v ≠ n := by
  constructor
  · have hs := setId_spec m K x n
    simp only [IdMapping.existingId]
    rw [if_pos (List.elem_iff.mpr (by rw [hs.2.2.1]; exact List.mem_cons_self x _))]
    exact hs.2.2.2.2
  · have hocc : n ∈ (m.setId K x n).occupiedFor K := by
      rw [(setId_spec m K x n).1]
      exact List.mem_cons_self n _
    exact runOps_fresh_avoids_occupied ops (m.setId K x n) tr m2 hocc hrun

/-- Witness for C2: empty mapping with range `0..5`, `set_id` pins key `x`
to `2`, then a `new_id` allocation for key `y` runs. -/
theorem setId_pins_and_blocks_reallocation_witness :
    (((IdMapping.ofSerialized []).addIdRange (0, 5)).setId "Quest" "x"
        2).existingId "Quest" "x" = some 2 ∧
      ∀ (op : MapOp) (v : Int),
        (op, some (v, true)) ∈
          [(MapOp.newIdOp "Quest" "y", some ((0 : Int), true))] →
        (∃ key, op = .newIdOp "Quest" key ∨ op = .getIdRawOp "Quest" key) →
        v ≠ 2 :=
  setId_pins_and_blocks_reallocation
    ((IdMapping.ofSerialized []).addIdRange (0, 5)) "Quest" "x" 2
    [MapOp.newIdOp "Quest" "y"]
    [(MapOp.newIdOp "Quest" "y", some ((0 : Int), true))]
    ⟨[("Quest", [("x", 2), ("y", 0)])], [("Quest", ["y", "x"])],
      [("Quest", [0, 2])], [("Quest", [(1, 5)])], [(0, 5)]⟩
    (by decide)

/-- Claim C3: `new_id(K, x)` on a key already registered as used panics
(`none`); on an unused key — provided an id can be produced, i.e. the key
already has a binding or a free id exists in the kind's ranges — it
succeeds, marks the key used, and an immediately repeated `new_id(K, x)`
fails. -/
theorem newId_rejects_duplicate_key (m : IdMapping) (K x : String) :
    (x ∈ m.usedFor K → m.newId K x = none) ∧
      (x ∉ m.usedFor K →
        ((∃ i, alGet (m.kindIds K) x = some i) ∨
          ∃ f, inRanges f (m.rangesFor K) ∧ f ∉ m.occupiedFor K) →
        ∃ v m2, m.newId K x = some (v, m2) ∧ x ∈ m2.usedFor K ∧
          m2.newId K x = none) := by
  have husedfail : ∀ (m3 : IdMapping), x ∈ m3.usedFor K →
      m3.newId K x = none := by
    intro m3 hx
    simp only [IdMapping.newId]
    rw [if_pos (List.elem_iff.mpr hx)]
  refine ⟨husedfail m, ?_⟩
  intro hunused hcan
  have hsucc : ∃ v m2, m.newId K x = some (v, m2) := by
    cases halg : alGet (m.kindIds K) x with
    | some i =>
      refine ⟨i,
        { ids := alInsert m.ids K (m.kindIds K)
          used_ids := alInsert m.used_ids K (x :: m.usedFor K)
          occupied_ids := m.occupied_ids
          available_ids := m.available_ids
          default_ids := m.default_ids }, ?_⟩
      simp only [IdMapping.newId]
      rw [if_neg (by simpa using hunused)]
      simp only [IdMapping.getIdRaw]
      rw [show IdMapping.kindIds
          { m with used_ids := alInsert m.used_ids K (x :: m.usedFor K) } K =
          m.kindIds K from rfl]
      simp only [halg]
    | none =>
      rcases hcan with ⟨i, hbound⟩ | ⟨f, hf1, hf2⟩
      · rw [halg] at hbound
        exact absurd hbound (by simp)
      · obtain ⟨id, m3, g1, _⟩ := newId_fresh_spec hunused halg hf1 hf2
        exact ⟨id, m3, g1⟩
  obtain ⟨v, m2, hv⟩ := hsucc
  have hm2used : x ∈ m2.usedFor K := by
    have h4 := (newId_some_spec hv).2.2.2
    simp only [IdMapping.usedFor, h4, alGet_alInsert_self, Option.getD_some]
    exact List.mem_cons_self x _
  exact ⟨v, m2, hv, hm2used, husedfail m2 hm2used⟩

/-- Witness for C3: empty mapping with range `0..3`; key `x` of kind
`Quest` is unused and unbound, and `0` is a free id. -/
theorem newId_rejects_duplicate_key_witness :
    ∃ v m2,
      ((IdMapping.ofSerialized []).addIdRange (0, 3)).newId "Quest" "x" =
        some (v, m2) ∧
      "x" ∈ m2.usedFor "Quest" ∧ m2.newId "Quest" "x" = none :=
  (newId_rejects_duplicate_key ((IdMapping.ofSerialized []).addIdRange (0, 3))
      "Quest" "x").2
    (by decide)
    (Or.inr ⟨0, by decide, by decide⟩)

/-- The `existing_id` lookup panics whenever the key is not in the used set. -/
theorem existingId_none_of_not_used {m : IdMapping} {K x : String}
    (h : x ∉ m.usedFor K) : m.existingId K x = none := by
  simp only [IdMapping.existingId]
  rw [if_neg (by simpa using h)]

/-- A step that is neither `new_id(K, x)` nor `set_id(K, x, _)` never marks
`x` used for `K`. -/
theorem stepOp_preserves_not_used {m m2 : IdMapping} {op : MapOp}
    {res : Option (Int × Bool)} {K x : String}
    (h : stepOp m op = some (res, m2))
    (hop1 : op ≠ .newIdOp K x) (hop2 : ∀ n, op ≠ .setIdOp K x n)
    (hx : x ∉ m.usedFor K) : x ∉ m2.usedFor K := by
  cases op with
  | addRange r =>
    simp only [stepOp, Option.some_inj, Prod.mk.injEq] at h
    rw [← h.2]
    exact hx
  | addRangeFor k r =>
    simp only [stepOp, Option.some_inj, Prod.mk.injEq] at h
    rw [← h.2]
    exact hx
  | getIdRawOp kind key =>
    simp only [stepOp] at h
    split at h
    · exact absurd h (by simp)
    · rename_i v mA heq
      rw [Option.some_inj, Prod.mk.injEq] at h
      rw [← h.2]
      have h3 := (getIdRaw_some_spec heq).2.2
      simp only [IdMapping.usedFor, h3]
      exact hx
  | newIdOp kind key =>
    simp only [stepOp] at h
    split at h
    · exact absurd h (by simp)
    · rename_i v mA heq
      rw [Option.some_inj, Prod.mk.injEq] at h
      rw [← h.2]
      have h4 := (newId_some_spec heq).2.2.2
      by_cases hK : kind = K
      · subst hK
        have hkey : key ≠ x := by
          intro hkeq
          exact hop1 (by rw [hkeq])
        simp only [IdMapping.usedFor, h4, alGet_alInsert_self,
          Option.getD_some, List.mem_cons]
        rintro (h5 | h5)
        · exact hkey h5.symm
        · exact hx h5
      · simp only [IdMapping.usedFor, h4,
          alGet_alInsert_ne _ _ _ _ (fun hh => hK hh)]
        exact hx
  | setIdOp kind key n =>
    simp only [stepOp, Option.some_inj, Prod.mk.injEq] at h
    rw [← h.2]
    by_cases hK : kind = K
    · subst hK
      have hkey : key ≠ x := by
        intro hkeq
        exact hop2 n (by rw [hkeq])
      rw [(setId_spec m kind key n).2.2.1]
      simp only [List.mem_cons]
      rintro (h5 | h5)
      · exact hkey h5.symm
      · exact hx h5
    · rw [(setId_spec m kind key n).2.2.2.1 K (fun hh => hK hh.symm)]
      exact hx

/-- Run-level: a run with no `new_id(K, x)` and no `set_id(K, x, _)` never
marks `x` used for `K`. -/
theorem runOps_preserves_not_used {K x : String} :
    ∀ (ops : List MapOp) (m : IdMapping)
      (tr : List (MapOp × Option (Int × Bool))) (m2 : IdMapping),
      x ∉ m.usedFor K → runOps m ops = some (tr, m2) →
      (∀ op ∈ ops, op ≠ MapOp.newIdOp K x ∧ ∀ n, op ≠ MapOp.setIdOp K x n) →
      x ∉ m2.usedFor K := by
  intro ops
  induction ops with
  | nil =>
    intro m tr m2 hx hrun _
    simp only [runOps, Option.some_inj, Prod.mk.injEq] at hrun
    rw [← hrun.2]
    exact hx
  | cons op0 rest ih =>
    intro m tr m2 hx hrun hops
    simp only [runOps] at hrun
    split at hrun
    · exact absurd hrun (by simp)
    · rename_i res mA hstep
      split at hrun
      · exact absurd hrun (by simp)
      · rename_i trA mB hrest
        rw [Option.some_inj, Prod.mk.injEq] at hrun
        rw [← hrun.2]
        have h0 := hops op0 (by simp)
        exact ih mA trA mB
          (stepOp_preserves_not_used hstep h0.1 h0.2 hx) hrest
          (fun op hop => hops op (by simp [hop]))

/-- Claim C4: starting from a mapping loaded from a persisted table (which
seeds the key table and the occupied set but not the used-key set), any run
containing no `new_id(K, x)` and no `set_id(K, x, _)` leaves
`existing_id(K, x)` panicking; yet `get_id_raw(K, x)` on the freshly loaded
mapping does return the persisted id when the table contains one. -/
theorem existingId_requires_registration
    (s : List (String × List (String × Int))) (K x : String)
    (ops : List MapOp) (tr : List (MapOp × Option (Int × Bool)))
    (m2 : IdMapping)
    (hrun : runOps (IdMapping.ofSerialized s) ops = some (tr, m2))
    (hnoreg : ∀ op ∈ ops,
      op ≠ MapOp.newIdOp K x ∧ ∀ n, op ≠ MapOp.setIdOp K x n) :
    m2.existingId K x = none ∧
      ∀ tbl n, alGet s K = some tbl → alGet tbl x = some n →
        ∃ m3, (IdMapping.ofSerialized s).getIdRaw K x = some (n, m3) := by
  constructor
  · have hinit : x ∉ (IdMapping.ofSerialized s).usedFor K := by
      simp [IdMapping.ofSerialized, IdMapping.usedFor, alGet]
    exact existingId_none_of_not_used
      (runOps_preserves_not_used ops (IdMapping.ofSerialized s) tr m2 hinit
        hrun hnoreg)
  · intro tbl n htbl hn
    have hk : (IdMapping.ofSerialized s).kindIds K = tbl := by
      simp only [IdMapping.ofSerialized, IdMapping.kindIds, htbl,
        Option.getD_some]
    refine ⟨{ IdMapping.ofSerialized s with
      ids := alInsert (IdMapping.ofSerialized s).ids K tbl }, ?_⟩
    simp only [IdMapping.getIdRaw, hk, hn]

/-- Witness for C4: a persisted table binding `eh:tutorial` of kind `Quest`
to `1`; the run adds a range and allocates an unrelated key `y`.
`existing_id(Quest, eh:tutorial)` still panics, and `get_id_raw` recovers
the persisted id `1`. -/
theorem existingId_requires_registration_witness :
    IdMapping.existingId
        ⟨[("Quest", [("eh:tutorial", 1), ("y", 0)])], [("Quest", ["y"])],
          [("Quest", [0, 1])], [("Quest", [(1, 3)])], [(0, 3)]⟩
        "Quest" "eh:tutorial" = none ∧
      ∀ tbl n, alGet [("Quest", [("eh:tutorial", 1)])] "Quest" = some tbl →
        alGet tbl "eh:tutorial" = some n →
        ∃ m3,
          (IdMapping.ofSerialized
              [("Quest", [("eh:tutorial", 1)])]).getIdRaw "Quest"
            "eh:tutorial" = some (n, m3) :=
  existingId_requires_registration [("Quest", [("eh:tutorial", 1)])] "Quest"
    "eh:tutorial" [MapOp.addRange (0, 3), MapOp.newIdOp "Quest" "y"]
    [(MapOp.addRange (0, 3), none),
      (MapOp.newIdOp "Quest" "y", some ((0 : Int), true))]
    ⟨[("Quest", [("eh:tutorial", 1), ("y", 0)])], [("Quest", ["y"])],
      [("Quest", [0, 1])], [("Quest", [(1, 3)])], [(0, 3)]⟩
    (by decide)
    (by
      intro op hop
      rcases List.mem_cons.mp hop with h | h
      · subst h
        exact ⟨by simp, fun n => by simp⟩
      · rcases List.mem_cons.mp h with h | h
        · subst h
          exact ⟨by decide, fun n => by simp⟩
        · simp at h)

/-!
## Container encryption (`src/eh_mod_dev/src/builder.rs`)

Bytes are `Nat` values below 256; `u32` state is `Nat` reduced modulo
`2^32 = 4294967296`. The zlib compressor (`flate2`) is an external library
and enters the embedding as an opaque function parameter.
-/

/-- Embeds `random` (builder.rs 215-219): the two-state generator.
`z = 36969 * (z & 0xFFFF) + (z >> 16)`, `w = 18000 * (w & 0xFFFF) +
(w >> 16)`, output `(z << 16).wrapping_add(w)`; all on `u32`. Returns
(output, new w, new z). -/
def randomStep (w z : Nat) : Nat × Nat × Nat :=
  let z2 := (36969 * (z % 65536) + z / 65536) % 4294967296
  let w2 := (18000 * (w % 65536) + w / 65536) % 4294967296
  ((z2 % 4294967296 * 65536 % 4294967296 + w2) % 4294967296, w2, z2)

/-- Little-endian bytes of the magic header `0xDA7ABA5E` written by
`serialize_header` (builder.rs 114-116). -/
def headerBytes : List Nat := [0x5E, 0xBA, 0x7A, 0xDA]

/-- Embeds the obfuscation loop of `encrypt` (builder.rs 90-94): for each
byte, add it into the wrapping `u8` checksum, then XOR it with the low byte
of the next generator output. Returns the obfuscated bytes, the final
generator state and the final checksum. -/
def encryptLoop : List Nat → Nat → Nat → Nat → List Nat × Nat × Nat × Nat
  | [], w, z, c => ([], w, z, c)
  | b :: rest, w, z, c =>
    let c2 := (c + b) % 256
    let s := randomStep w z
    let b2 := Nat.xor b (s.1 % 256)
    let t := encryptLoop rest s.2.1 s.2.2 c2
    (b2 :: t.1, t.2)

/-- Embeds `encrypt` (builder.rs 79-101): write the header, compress,
seed `w = 0x12345678 ^ size` and `z = 0x87654321 ^ size` with `size` the
compressed length as `u32`, obfuscate, and append the checksum byte XORed
with one more generator output byte. The compressor is passed in as an
opaque function (zlib is external). -/
def encrypt (compressFn : List Nat → List Nat) (raw : List Nat) : List Nat :=
  let data := compressFn raw
  let size := data.length % 4294967296
  let w := Nat.xor 0x12345678 size
  let z := Nat.xor 0x87654321 size
  let r := encryptLoop data w z 0
  let s := randomStep r.2.1 r.2.2.1
  headerBytes ++ r.1 ++ [Nat.xor r.2.2.2 (s.1 % 256)]

/-- Generator state after `n` outputs have been drawn. -/
def prngAdvance (w z : Nat) : Nat → Nat × Nat
  | 0 => (w, z)
  | n + 1 =>
    let s := randomStep w z
    prngAdvance s.2.1 s.2.2 n

/-- First `n` output bytes (low byte of each output) of the generator. -/
def prngStream (w z : Nat) : Nat → List Nat
  | 0 => []
  | n + 1 =>
    let s := randomStep w z
    s.1 % 256 :: prngStream s.2.1 s.2.2 n

/-- Reference algorithm stated by the specification for claim C5: write the
magic header; zlib-compress the payload (opaque function); XOR each
compressed byte with the successive output bytes of the generator seeded
with `w = 0x12345678 XOR length` and `z = 0x87654321 XOR length`; append
one trailing byte equal to the wrapping byte-sum of all pre-obfuscation
compressed bytes XORed with the next generator output byte. -/
def encryptSpec (compressFn : List Nat → List Nat) (raw : List Nat) :
    List Nat :=
  let data := compressFn raw
  let size := data.length % 4294967296
  let ks := prngStream (Nat.xor 0x12345678 size) (Nat.xor 0x87654321 size)
    (data.length + 1)
  let body := List.zipWith Nat.xor data ks
  let csum := data.foldl (fun c b => (c + b) % 256) 0
  headerBytes ++ body ++ [Nat.xor csum (ks.getD data.length 0)]

theorem encryptLoop_closed (data : List Nat) :
    ∀ (w z c : Nat) (k : Nat),
      encryptLoop data w z c =
        (List.zipWith Nat.xor data (prngStream w z (data.length + k)),
          (prngAdvance w z data.length).1, (prngAdvance w z data.length).2,
          data.foldl (fun c2 b => (c2 + b) % 256) c) := by
  induction data with
  | nil =>
    intro w z c k
    simp [encryptLoop, prngAdvance, List.zipWith]
  | cons b rest ih =>
    intro w z c k
    simp only [encryptLoop, List.length_cons]
    rw [show rest.length + 1 + k = (rest.length + k) + 1 by omega]
    simp only [prngStream, List.zipWith, prngAdvance, List.foldl]
    rw [ih (randomStep w z).2.1 (randomStep w z).2.2 ((c + b) % 256) k]

theorem prngStream_getD (n : Nat) :
    ∀ (w z : Nat), (prngStream w z (n + 1)).getD n 0 =
      (randomStep (prngAdvance w z n).1 (prngAdvance w z n).2).1 % 256 := by
  induction n with
  | zero => intro w z; simp [prngStream, prngAdvance]
  | succ m ih =>
    intro w z
    simp only [prngStream, prngAdvance, List.getD_cons_succ]
    exact ih (randomStep w z).2.1 (randomStep w z).2.2

/-- Claim C5: the container encryption step of `builder.rs` equals the
reference algorithm stated in the specification, for every payload and
every (opaque, deterministic) compressor — hence the encoding is
deterministic. -/
theorem encrypt_eq_reference (compressFn : List Nat → List Nat)
    (raw : List Nat) : encrypt compressFn raw = encryptSpec compressFn raw := by
  simp only [encrypt, encryptSpec]
  rw [encryptLoop_closed (compressFn raw) _ _ 0 1]
  simp only [List.append_cancel_left_eq, List.cons.injEq, and_true]
  rw [prngStream_getD]

/-!
## Filesystem effect traces (`src/eh_mod_dev/src/database.rs` save,
`src/smart_output/src/lib.rs` flush)

The filesystem is a map from path to file content; paths and contents are
strings. An operation trace records the effectful calls in program order;
crash-at-any-point behaviour corresponds to stopping after a prefix of the
trace. `trashFile` (the `trash` crate) and `removeFile`
(`fs_err::remove_file`) both remove the path from the live tree but are
kept distinct, since recoverability from the trash bin is what claim C8 is
about. -/

/-- One filesystem operation. -/
inductive FsOp where
  | copyFile (src dst : String)
  | writeFile (path : String) (content : String)
  | removeFile (path : String)
  | trashFile (path : String)
deriving DecidableEq

/-- Effect of one operation on the live file tree. -/
def applyOp (fs : String → Option String) : FsOp → String → Option String
  | .copyFile src dst => fun p => if p = dst then fs src else fs p
  | .writeFile path c => fun p => if p = path then some c else fs p
  | .removeFile path => fun p => if p = path then none else fs p
  | .trashFile path => fun p => if p = path then none else fs p

/-- Effect of a trace, first operation first. -/
def applyOps (fs : String → Option String) : List FsOp → String → Option String
  | [] => fs
  | op :: rest => applyOps (applyOp fs op) rest

/-- Whether an operation can change the content stored at a path. -/
def touches (op : FsOp) (q : String) : Prop :=
  match op with
  | .copyFile _ dst => dst = q
  | .writeFile p _ => p = q
  | .removeFile p => p = q
  | .trashFile p => p = q

instance (op : FsOp) (q : String) : Decidable (touches op q) := by
  unfold touches; cases op <;> infer_instance

theorem applyOp_not_touched {op : FsOp} {q : String}
    (h : ¬touches op q) (fs : String → Option String) :
    applyOp fs op q = fs q := by
  cases op with
  | copyFile src dst => exact if_neg (fun hh => h hh.symm)
  | writeFile p c => exact if_neg (fun hh => h hh.symm)
  | removeFile p => exact if_neg (fun hh => h hh.symm)
  | trashFile p => exact if_neg (fun hh => h hh.symm)

theorem applyOps_not_touched {q : String} :
    ∀ (l : List FsOp) (fs : String → Option String),
      (∀ op ∈ l, ¬touches op q) → applyOps fs l q = fs q := by
  intro l
  induction l with
  | nil => intro fs _; rfl
  | cons op rest ih =>
    intro fs h
    simp only [applyOps]
    rw [ih (applyOp fs op) (fun op2 h2 => h op2 (by simp [h2]))]
    exact applyOp_not_touched (h op (by simp)) fs

theorem applyOps_append (l1 l2 : List FsOp) :
    ∀ fs : String → Option String,
      applyOps fs (l1 ++ l2) = applyOps (applyOps fs l1) l2 := by
  induction l1 with
  | nil => intro fs; rfl
  | cons op rest ih =>
    intro fs
    simp only [List.cons_append, applyOps]
    exact ih (applyOp fs op)

/-- File names used by the database save pass (database.rs 43-45). -/
def MAPPINGS_NAME : String := "id_mappings.json5"

/-- Backup name for the mappings file (database.rs 44). -/
def MAPPINGS_BACKUP_NAME : String := "id_mappings.json5.backup"

/-- Name of the persisted hash manifest (database.rs 45). -/
def HASHES_NAME : String := ".hashes"

/-- Paths registered in `saved_files` before the item loop
(database.rs 341-343) plus the per-item output paths (database.rs 409). -/
def dbSavedPaths (outputs : List (String × String)) : List String :=
  [MAPPINGS_NAME, MAPPINGS_BACKUP_NAME, HASHES_NAME] ++ outputs.map Prod.fst

/-- Filesystem trace of `DatabaseHolder::save` (database.rs 296-494) in the
no-container configuration, in source order: back up then overwrite the
mappings file (overwrite first when no mappings file existed), write every
item file, write the refreshed hash manifest, permanently remove every
walked file that is not among the saved paths, and finally remove the
mappings backup. -/
def dbSaveOps (mappingsExists : Bool) (newMappings hashesContent : String)
    (outputs : List (String × String)) (stale : List String) : List FsOp :=
  (if mappingsExists then
    [FsOp.copyFile MAPPINGS_NAME MAPPINGS_BACKUP_NAME,
      FsOp.writeFile MAPPINGS_NAME newMappings]
  else
    [FsOp.writeFile MAPPINGS_NAME newMappings,
      FsOp.copyFile MAPPINGS_NAME MAPPINGS_BACKUP_NAME])
  ++ outputs.map (fun pc => FsOp.writeFile pc.1 pc.2)
  ++ [FsOp.writeFile HASHES_NAME hashesContent]
  ++ ((stale.filter (fun p => !(dbSavedPaths outputs).contains p)).map
      FsOp.removeFile)
  ++ [FsOp.removeFile MAPPINGS_BACKUP_NAME]

/-- Embeds `DatabaseHolder::save` as a trace builder: `none` where the
source panics before producing effects — a pre-existing mappings backup
(`check_no_backup`, database.rs 81-87 and 301), or an output path collision
(`File with this name was already saved`, database.rs 400-402; the source
panics mid-loop, which corresponds to stopping at a prefix of the trace).
`stale` lists the paths visited by the cleanup walk. -/
def dbSave (fs : String → Option String) (newMappings hashesContent : String)
    (outputs : List (String × String)) (stale : List String) :
    Option (List FsOp) :=
  if (fs MAPPINGS_BACKUP_NAME).isSome then none
  else if (outputs.map Prod.fst).Nodup ∧
      ∀ p ∈ outputs.map Prod.fst,
        p ∉ [MAPPINGS_NAME, MAPPINGS_BACKUP_NAME, HASHES_NAME] then
    some (dbSaveOps (fs MAPPINGS_NAME).isSome newMappings hashesContent
      outputs stale)
  else none

/-- Claim C6: the database save refuses to start when a mappings backup
already exists; otherwise it backs up the mappings file, overwrites it,
and removes the backup only after every file write of the pass, so after
every prefix of the effect trace the mappings path holds either the old or
the new table intact, and the final state has the new table with no backup
left behind. -/
theorem dbSave_backup_protocol (fs : String → Option String)
    (old newM hashesC : String) (outputs : List (String × String))
    (stale : List String) (hold : fs MAPPINGS_NAME = some old) :
    ((fs MAPPINGS_BACKUP_NAME).isSome →
      dbSave fs newM hashesC outputs stale = none) ∧
    (fs MAPPINGS_BACKUP_NAME = none →
      ∀ ops, dbSave fs newM hashesC outputs stale = some ops →
        (∀ n, applyOps fs (ops.take n) MAPPINGS_NAME = some old ∨
            applyOps fs (ops.take n) MAPPINGS_NAME = some newM) ∧
        applyOps fs ops MAPPINGS_NAME = some newM ∧
        applyOps fs ops MAPPINGS_BACKUP_NAME = none ∧
        ∃ pre, ops = pre ++ [FsOp.removeFile MAPPINGS_BACKUP_NAME] ∧
          ∀ p c, FsOp.writeFile p c ∈ ops → FsOp.writeFile p c ∈ pre) := by
  constructor
  · intro hb
    simp only [dbSave]
    rw [if_pos hb]
  · intro hb ops hops
    simp only [dbSave] at hops
    rw [if_neg (by simp [hb])] at hops
    split at hops
    case isFalse => exact absurd hops (by simp)
    case isTrue hpaths =>
      rw [Option.some_inj] at hops
      have hex : (fs MAPPINGS_NAME).isSome = true := by rw [hold]; rfl
      rw [hex] at hops
      have hform : ops =
          FsOp.copyFile MAPPINGS_NAME MAPPINGS_BACKUP_NAME ::
          FsOp.writeFile MAPPINGS_NAME newM ::
          (((outputs.map (fun pc => FsOp.writeFile pc.1 pc.2) ++
              [FsOp.writeFile HASHES_NAME hashesC]) ++
            (stale.filter
              (fun p => !(dbSavedPaths outputs).contains p)).map
              FsOp.removeFile) ++
            [FsOp.removeFile MAPPINGS_BACKUP_NAME]) := by
        rw [← hops]
        rfl
      have hnt : ∀ op ∈
          ((outputs.map (fun pc => FsOp.writeFile pc.1 pc.2) ++
              [FsOp.writeFile HASHES_NAME hashesC]) ++
            (stale.filter
              (fun p => !(dbSavedPaths outputs).contains p)).map
              FsOp.removeFile) ++
            [FsOp.removeFile MAPPINGS_BACKUP_NAME],
          ¬touches op MAPPINGS_NAME := by
        intro op hop
        rcases List.mem_append.mp hop with h1 | h1
        · rcases List.mem_append.mp h1 with h2 | h2
          · rcases List.mem_append.mp h2 with h3 | h3
            · obtain ⟨pc, hpc, hop3⟩ := List.mem_map.mp h3
              rw [← hop3]
              intro htch
              have hne := hpaths.2 pc.1 (List.mem_map_of_mem Prod.fst hpc)
              exact hne (by
                rw [show pc.1 = MAPPINGS_NAME from htch]
                exact List.mem_cons_self _ _)
            · rw [List.mem_singleton.mp h3]
              exact fun htch =>
                (show HASHES_NAME ≠ MAPPINGS_NAME by decide) htch
          · obtain ⟨p, hp, hop2⟩ := List.mem_map.mp h2
            rw [← hop2]
            intro htch
            have hfil := (List.mem_filter.mp hp).2
            simp only [Bool.not_eq_true'] at hfil
            rw [show p = MAPPINGS_NAME from htch] at hfil
            have hmem2 : MAPPINGS_NAME ∈ dbSavedPaths outputs := by
              simp [dbSavedPaths]
            have hcontra2 : (dbSavedPaths outputs).contains MAPPINGS_NAME =
                true := List.elem_iff.mpr hmem2
            rw [hfil] at hcontra2
            exact absurd hcontra2 (by decide)
        · rw [List.mem_singleton.mp h1]
          exact fun htch =>
            (show MAPPINGS_BACKUP_NAME ≠ MAPPINGS_NAME by decide) htch
      have hfs2 : applyOp (applyOp fs
          (FsOp.copyFile MAPPINGS_NAME MAPPINGS_BACKUP_NAME))
          (FsOp.writeFile MAPPINGS_NAME newM) MAPPINGS_NAME = some newM := by
        simp [applyOp]
      refine ⟨?_, ?_, ?_, ?_⟩
      · intro n
        match n with
        | 0 => exact Or.inl hold
        | 1 =>
          left
          rw [hform]
          simp only [List.take_succ_cons, List.take_zero, applyOps]
          rw [applyOp_not_touched (by decide) fs]
          exact hold
        | Nat.succ (Nat.succ n) =>
          right
          rw [hform]
          simp only [List.take_succ_cons, applyOps]
          rw [applyOps_not_touched _ _
            (fun op h2 => hnt op (List.mem_of_mem_take h2))]
          exact hfs2
      · rw [hform]
        simp only [applyOps]
        rw [applyOps_not_touched _ _ hnt]
        exact hfs2
      · rw [hform]
        simp only [applyOps]
        rw [applyOps_append]
        simp [applyOps, applyOp]
      · refine ⟨FsOp.copyFile MAPPINGS_NAME MAPPINGS_BACKUP_NAME ::
          FsOp.writeFile MAPPINGS_NAME newM ::
          ((outputs.map (fun pc => FsOp.writeFile pc.1 pc.2) ++
              [FsOp.writeFile HASHES_NAME hashesC]) ++
            (stale.filter
              (fun p => !(dbSavedPaths outputs).contains p)).map
              FsOp.removeFile),
          ?_, ?_⟩
        · rw [hform]
          rfl
        · intro p c hmem
          have hpre : ops =
              (FsOp.copyFile MAPPINGS_NAME MAPPINGS_BACKUP_NAME ::
                FsOp.writeFile MAPPINGS_NAME newM ::
                ((outputs.map (fun pc => FsOp.writeFile pc.1 pc.2) ++
                    [FsOp.writeFile HASHES_NAME hashesC]) ++
                  (stale.filter
                    (fun p => !(dbSavedPaths outputs).contains p)).map
                    FsOp.removeFile)) ++
              [FsOp.removeFile MAPPINGS_BACKUP_NAME] := by
            rw [hform]
            rfl
          rw [hpre] at hmem
          rcases List.mem_append.mp hmem with h | h
          · exact h
          · exact absurd (List.mem_singleton.mp h) (by simp)

/-- Witness for C6: a concrete directory holding one old mappings file, one
item output and one stale file. -/
theorem dbSave_backup_protocol_witness :
    (fun p => if p = MAPPINGS_NAME then some "old" else none)
        MAPPINGS_NAME = some "old" ∧
    ((((fun p => if p = MAPPINGS_NAME then some "old" else none)
          MAPPINGS_BACKUP_NAME).isSome →
      dbSave (fun p => if p = MAPPINGS_NAME then some "old" else none)
        "new" "h" [("a.json", "x")] ["gone.json"] = none) ∧
    ((fun p => if p = MAPPINGS_NAME then some "old" else none)
        MAPPINGS_BACKUP_NAME = none →
      ∀ ops,
        dbSave (fun p => if p = MAPPINGS_NAME then some "old" else none)
          "new" "h" [("a.json", "x")] ["gone.json"] = some ops →
        (∀ n, applyOps
            (fun p => if p = MAPPINGS_NAME then some "old" else none)
            (ops.take n) MAPPINGS_NAME = some "old" ∨
          applyOps
            (fun p => if p = MAPPINGS_NAME then some "old" else none)
            (ops.take n) MAPPINGS_NAME = some "new") ∧
        applyOps
          (fun p => if p = MAPPINGS_NAME then some "old" else none)
          ops MAPPINGS_NAME = some "new" ∧
        applyOps
          (fun p => if p = MAPPINGS_NAME then some "old" else none)
          ops MAPPINGS_BACKUP_NAME = none ∧
        ∃ pre, ops = pre ++ [FsOp.removeFile MAPPINGS_BACKUP_NAME] ∧
          ∀ p c, FsOp.writeFile p c ∈ ops →
            FsOp.writeFile p c ∈ pre)) :=
  ⟨by decide,
    dbSave_backup_protocol
      (fun p => if p = MAPPINGS_NAME then some "old" else none)
      "old" "new" "h" [("a.json", "x")] ["gone.json"] (by decide)⟩

/-- Marker-file name of the incremental output writer
(smart_output lib.rs 90). -/
def MANAGED_FILES_NAME : String := ".managed_files"

/-- Backup name of the marker file (smart_output lib.rs 91). -/
def MANAGED_FILES_BACKUP_NAME : String := ".managed_files.bk"

/-- Filesystem trace of `SmartOutput::flush` (smart_output lib.rs 197-300),
in source order: back up the marker file, write every added file whose
hash differs from the recorded one (`sha256` is embedded as the identity
on contents, i.e. an injective digest), write the refreshed marker file,
move every previously-hashed path that is no longer produced and still
exists to the trash (`trash::delete_all`), and finally move the marker
backup to the trash (`trash::delete`). -/
def smartFlushOps (fs : String → Option String)
    (files : List (String × String)) (oldHashes : List (String × String))
    (newManaged : String) : List FsOp :=
  [FsOp.copyFile MANAGED_FILES_NAME MANAGED_FILES_BACKUP_NAME]
  ++ (files.filterMap (fun pc =>
      if alGet oldHashes pc.1 = some pc.2 then none
      else some (FsOp.writeFile pc.1 pc.2)))
  ++ [FsOp.writeFile MANAGED_FILES_NAME newManaged]
  ++ ((oldHashes.map Prod.fst).filter
      (fun p => !(files.map Prod.fst).contains p && (fs p).isSome)).map
      FsOp.trashFile
  ++ [FsOp.trashFile MANAGED_FILES_BACKUP_NAME]

/-- Counterexample to C8 as stated: the database save pass deletes a stale
file with `fs_err::remove_file`, and its trace contains no trash
operation at all — the move-to-trash behaviour holds only for
`SmartOutput::flush`. -/
theorem dbSave_stale_removed_not_trashed :
    dbSave (fun p => if p = MAPPINGS_NAME then some "old" else none)
        "new" "h" [("a.json", "x")] ["stale.json"] =
      some [FsOp.copyFile MAPPINGS_NAME MAPPINGS_BACKUP_NAME,
        FsOp.writeFile MAPPINGS_NAME "new",
        FsOp.writeFile "a.json" "x",
        FsOp.writeFile HASHES_NAME "h",
        FsOp.removeFile "stale.json",
        FsOp.removeFile MAPPINGS_BACKUP_NAME] ∧
      FsOp.removeFile "stale.json" ∈
        [FsOp.copyFile MAPPINGS_NAME MAPPINGS_BACKUP_NAME,
          FsOp.writeFile MAPPINGS_NAME "new",
          FsOp.writeFile "a.json" "x",
          FsOp.writeFile HASHES_NAME "h",
          FsOp.removeFile "stale.json",
          FsOp.removeFile MAPPINGS_BACKUP_NAME] ∧
      ∀ p, FsOp.trashFile p ∉
        [FsOp.copyFile MAPPINGS_NAME MAPPINGS_BACKUP_NAME,
          FsOp.writeFile MAPPINGS_NAME "new",
          FsOp.writeFile "a.json" "x",
          FsOp.writeFile HASHES_NAME "h",
          FsOp.removeFile "stale.json",
          FsOp.removeFile MAPPINGS_BACKUP_NAME] := by
  refine ⟨by decide, by decide, ?_⟩
  intro p
  simp

/-- Claim C8 as amended: stale previously-managed files are deleted by
moving to trash in the standalone incremental output writer
(`SmartOutput::flush`), whose trace contains no permanent removal at all;
the database save pass, by contrast, deletes its stale files permanently
via `remove_file` and never uses the trash. -/
theorem stale_deletion_mechanisms (fsA fsB : String → Option String)
    (files oldHashes : List (String × String)) (newManaged : String)
    (newM hashesC : String) (outputs : List (String × String))
    (stale : List String) :
    (∀ p, p ∈ oldHashes.map Prod.fst → p ∉ files.map Prod.fst →
      (fsA p).isSome →
      FsOp.trashFile p ∈ smartFlushOps fsA files oldHashes newManaged) ∧
    (∀ p, FsOp.removeFile p ∉ smartFlushOps fsA files oldHashes newManaged) ∧
    (∀ ops, dbSave fsB newM hashesC outputs stale = some ops →
      ∀ p ∈ stale, p ∉ dbSavedPaths outputs →
        FsOp.removeFile p ∈ ops ∧ ∀ q, FsOp.trashFile q ∉ ops) := by
  refine ⟨?_, ?_, ?_⟩
  · intro p hold hnew hexists
    have hmem : p ∈ (oldHashes.map Prod.fst).filter
        (fun p => !(files.map Prod.fst).contains p && (fsA p).isSome) := by
      rw [List.mem_filter]
      refine ⟨hold, ?_⟩
      rw [Bool.and_eq_true]
      constructor
      · rw [Bool.not_eq_true']
        cases hc : (files.map Prod.fst).contains p with
        | false => rfl
        | true => exact absurd (List.elem_iff.mp hc) hnew
      · exact hexists
    simp only [smartFlushOps, List.append_assoc, List.mem_append]
    refine Or.inr (Or.inr (Or.inr (Or.inl ?_)))
    exact List.mem_map_of_mem FsOp.trashFile hmem
  · intro p hmem
    simp only [smartFlushOps, List.append_assoc, List.mem_append,
      List.mem_singleton, List.mem_filterMap, List.mem_map,
      List.mem_cons, List.not_mem_nil, or_false] at hmem
    rcases hmem with h | ⟨pc, _, h⟩ | h | ⟨q, _, h⟩ | h
    · exact absurd h (by simp)
    · split at h
      · exact absurd h (by simp)
      · exact absurd h (by simp)
    · exact absurd h (by simp)
    · exact absurd h (by simp)
    · exact absurd h (by simp)
  · intro ops hops p hp hnp
    simp only [dbSave] at hops
    split at hops
    case isTrue => exact absurd hops (by simp)
    case isFalse =>
      split at hops
      case isFalse => exact absurd hops (by simp)
      case isTrue hpaths =>
        rw [Option.some_inj] at hops
        have hfil : p ∈ stale.filter
            (fun p => !(dbSavedPaths outputs).contains p) := by
          rw [List.mem_filter]
          refine ⟨hp, ?_⟩
          rw [Bool.not_eq_true']
          cases hc : (dbSavedPaths outputs).contains p with
          | false => rfl
          | true => exact absurd (List.elem_iff.mp hc) hnp
        constructor
        · rw [← hops]
          simp only [dbSaveOps, List.append_assoc, List.mem_append]
          refine Or.inr (Or.inr (Or.inr (Or.inl ?_)))
          exact List.mem_map_of_mem FsOp.removeFile hfil
        · intro q hmem
          rw [← hops] at hmem
          simp only [dbSaveOps, List.append_assoc, List.mem_append,
            List.mem_singleton, List.mem_map, List.mem_cons,
            List.not_mem_nil, or_false] at hmem
          rcases hmem with h | ⟨pc, _, h⟩ | h | ⟨r, _, h⟩ | h
          · split at h <;> simp at h
          · exact absurd h (by simp)
          · exact absurd h (by simp)
          · exact absurd h (by simp)
          · exact absurd h (by simp)

/-- Witness for the amended C8: a concrete flush with one continuing output
`a.json` and one stale managed path `old.json` still on disk. -/
theorem stale_deletion_mechanisms_witness :
    FsOp.trashFile "old.json" ∈ smartFlushOps
        (fun p => if p = "old.json" then some "y" else none)
        [("a.json", "x")] [("old.json", "h1")] "m2" ∧
      FsOp.removeFile "old.json" ∉ smartFlushOps
        (fun p => if p = "old.json" then some "y" else none)
        [("a.json", "x")] [("old.json", "h1")] "m2" :=
  ⟨(stale_deletion_mechanisms
      (fun p => if p = "old.json" then some "y" else none)
      (fun _ => none) [("a.json", "x")] [("old.json", "h1")] "m2"
      "new" "h" [] []).1 "old.json" (by decide) (by decide) (by decide),
    (stale_deletion_mechanisms
      (fun p => if p = "old.json" then some "y" else none)
      (fun _ => none) [("a.json", "x")] [("old.json", "h1")] "m2"
      "new" "h" [] []).2.1 "old.json"⟩

/-!
## Database item handles (`src/eh_mod_dev/src/database/db_item.rs`,
`DatabaseHolder::consume_item` in database.rs 245-268)

Of the generated `Item` sum type only what the database observes is
modelled: the kind name (`inner_type_name()`), the optional numeric id
(`id()`, `none` for settings singletons) and an opaque payload.
-/

/-- Abstract generated record as seen by the database. -/
structure DbRecord where
  typeName : String
  itemId : Option Int
  payload : Nat
deriving DecidableEq

/-- Content database: kind name to (optional id to record); the `none`
slot holds the singleton settings record. -/
structure DbState where
  items : List (String × List (Option Int × DbRecord))
deriving DecidableEq

/-- Embeds `DatabaseHolder::consume_item` (database.rs 245-268): insert the
record under its kind and id; a collision is logged but the insert still
replaces the slot (last writer wins). -/
def consumeItem (db : DbState) (item : DbRecord) : DbState :=
  let map := (alGet db.items item.typeName).getD []
  { items := alInsert db.items item.typeName (alInsert map item.itemId item) }

/-- Lookup helper mirroring `get_item`/`get_singleton` slot access
(database.rs 213-243). -/
def dbLookup (db : DbState) (kind : String) (id : Option Int) :
    Option DbRecord :=
  (alGet db.items kind).bind (fun m => alGet m id)

/-- How a `DbItem` handle's lifetime ends. -/
inductive HandleExit where
  | drop
  | save
  | forget
deriving DecidableEq

/-- Embeds the `DbItem` lifecycle (db_item.rs): `Drop` registers the held
record via `consume_item` (lines 74-80); `save(self) {}` merely consumes
the handle so `Drop` runs and registers it (line 29); `forget` takes the
record out and returns it, so `Drop` finds nothing and the database is
untouched (lines 22-24). Returns the database and the record handed back
to the caller, if any. -/
def finalizeDbItem (db : DbState) (item : DbRecord) :
    HandleExit → DbState × Option DbRecord
  | .drop => (consumeItem db item, none)
  | .save => (consumeItem db item, none)
  | .forget => (db, some item)

/-- Counterexample to C7 as stated: ending a handle with `forget` does not
register the record — the database stays empty and the record is handed
back instead. -/
theorem dbItem_forget_not_registered :
    (finalizeDbItem ⟨[]⟩ ⟨"QuestSettings", none, 7⟩ HandleExit.forget).1 =
        (⟨[]⟩ : DbState) ∧
      dbLookup (finalizeDbItem ⟨[]⟩ ⟨"QuestSettings", none, 7⟩
        HandleExit.forget).1 "QuestSettings" none = none ∧
      (finalizeDbItem ⟨[]⟩ ⟨"QuestSettings", none, 7⟩ HandleExit.forget).2 =
        some ⟨"QuestSettings", none, 7⟩ := by
  decide

/-- Claim C7 as amended: a record passed to `add_item` is registered into
the database under its kind and id (or the `none` slot for singletons) on
handle drop or on an explicit `save` call; an explicit `forget` call
instead prevents registration and returns the record. -/
theorem dbItem_registration (db : DbState) (item : DbRecord) :
    dbLookup (finalizeDbItem db item HandleExit.drop).1 item.typeName
        item.itemId = some item ∧
      dbLookup (finalizeDbItem db item HandleExit.save).1 item.typeName
        item.itemId = some item ∧
      finalizeDbItem db item HandleExit.forget = (db, some item) := by
  have hreg : dbLookup (consumeItem db item) item.typeName item.itemId =
      some item := by
    simp only [dbLookup, consumeItem, alGet_alInsert_self, Option.some_bind,
      alGet_alInsert_self]
  exact ⟨hreg, hreg, rfl⟩

/-!
## Schema loader ordering (`src/codegen_schema/src/lib.rs` 11-41,
`src/codegen_schema/src/schema.rs`)

File paths enter the embedding as strings compared lexicographically by
character code (a computable total order standing in for Rust's `PathBuf`
ordering in the tie-break comparison; the claim only requires a
deterministic total order on paths).
-/

/-- Version marker payload (schema.rs 4-12). -/
structure SchemaVersion where
  name : String
  major : String
  minor : String
deriving DecidableEq

/-- The five data kinds, in the declaration order of schema.rs 36-44; the
derived Rust `Ord` compares by this order: Enum < Expression < Struct <
Settings < Object. -/
inductive SchemaDataType where
  | Enum
  | Expression
  | Struct
  | Settings
  | Object
deriving DecidableEq

/-- Declaration index, realising the derived `Ord` of `SchemaDataType`. -/
def SchemaDataType.rank : SchemaDataType → Nat
  | .Enum => 0
  | .Expression => 1
  | .Struct => 2
  | .Settings => 3
  | .Object => 4

/-- `Ord::cmp` of `SchemaDataType` (derived, by declaration order). -/
def SchemaDataType.cmp (a b : SchemaDataType) : Ordering :=
  compare a.rank b.rank

/-- One named schema entry; only the fields the loader's ordering observes
are modelled (member lists are irrelevant to the sort). -/
structure SchemaData where
  ty : SchemaDataType
  name : String
deriving DecidableEq

/-- Top-level parsed unit (schema.rs 14-19). -/
inductive SchemaItem where
  | schema (version : SchemaVersion)
  | data (d : SchemaData)
deriving DecidableEq

/-- Lexicographic comparison of character lists by character code. -/
def chListCmp : List Char → List Char → Ordering
  | [], [] => Ordering.eq
  | [], _ :: _ => Ordering.lt
  | _ :: _, [] => Ordering.gt
  | c1 :: r1, c2 :: r2 => (compare c1.toNat c2.toNat).then (chListCmp r1 r2)

/-- Path comparison: lexicographic by character code. -/
def pathCmp (a b : String) : Ordering := chListCmp a.data b.data

/-- The comparator of `load_from_dir`'s sort (codegen_schema lib.rs 30-38):
`Schema` items before `Data` items, `Data` items by `ty`, ties broken by
file path. -/
def cmpSchemaFiles (a b : String × SchemaItem) : Ordering :=
  (match a.2, b.2 with
    | SchemaItem.schema _, SchemaItem.data _ => Ordering.lt
    | SchemaItem.data _, SchemaItem.schema _ => Ordering.gt
    | SchemaItem.data x, SchemaItem.data y => SchemaDataType.cmp x.ty y.ty
    | SchemaItem.schema _, SchemaItem.schema _ => Ordering.eq).then
    (pathCmp a.1 b.1)

/-- Embeds `load_from_dir`'s deterministic ordering step (lib.rs 30-38):
the discovered `(path, item)` list is stably sorted by `cmpSchemaFiles`
(`slice::sort_by` is a stable sort; `mergeSort` with the comparator's
not-greater relation realises it). -/
def load_from_dir (files : List (String × SchemaItem)) :
    List (String × SchemaItem) :=
  files.mergeSort (fun a b => cmpSchemaFiles a b != Ordering.gt)

theorem ordering_then_ne_gt {o1 o2 : Ordering} :
    o1.then o2 ≠ Ordering.gt ↔
      o1 = Ordering.lt ∨ (o1 = Ordering.eq ∧ o2 ≠ Ordering.gt) := by
  cases o1 <;> simp [Ordering.then]

theorem chListCmp_trans :
    ∀ a b c : List Char, chListCmp a b ≠ Ordering.gt →
      chListCmp b c ≠ Ordering.gt → chListCmp a c ≠ Ordering.gt := by
  intro a
  induction a with
  | nil =>
    intro b c _ _
    cases c <;> simp [chListCmp]
  | cons x xs ih =>
    intro b c hab hbc
    cases b with
    | nil => exact absurd rfl hab
    | cons y ys =>
      cases c with
      | nil => exact absurd rfl hbc
      | cons z zs =>
        simp only [chListCmp] at hab hbc ⊢
        rw [ordering_then_ne_gt] at hab hbc ⊢
        rcases hab with hab | ⟨hab1, hab2⟩
        · rcases hbc with hbc | ⟨hbc1, hbc2⟩
          · exact Or.inl (Nat.compare_eq_lt.mpr
              (Nat.lt_trans (Nat.compare_eq_lt.mp hab)
                (Nat.compare_eq_lt.mp hbc)))
          · exact Or.inl (Nat.compare_eq_lt.mpr
              (Nat.compare_eq_eq.mp hbc1 ▸ Nat.compare_eq_lt.mp hab))
        · rcases hbc with hbc | ⟨hbc1, hbc2⟩
          · exact Or.inl (Nat.compare_eq_lt.mpr
              (Nat.compare_eq_eq.mp hab1 ▸ Nat.compare_eq_lt.mp hbc))
          · exact Or.inr ⟨by
              rw [Nat.compare_eq_eq] at hab1 hbc1 ⊢
              omega, ih ys zs hab2 hbc2⟩

theorem ordering_swap_then (o1 o2 : Ordering) :
    (o1.then o2).swap = o1.swap.then o2.swap := by
  cases o1 <;> rfl

theorem natCompare_swap (m n : Nat) : compare m n = (compare n m).swap := by
  rcases Nat.lt_trichotomy m n with h | h | h
  · rw [Nat.compare_eq_lt.mpr h, Nat.compare_eq_gt.mpr h]
    rfl
  · subst h
    rw [Nat.compare_eq_eq.mpr rfl]
    rfl
  · rw [Nat.compare_eq_gt.mpr h, Nat.compare_eq_lt.mpr h]
    rfl

theorem chListCmp_swap :
    ∀ a b : List Char, chListCmp a b = (chListCmp b a).swap := by
  intro a
  induction a with
  | nil => intro b; cases b <;> rfl
  | cons x xs ih =>
    intro b
    cases b with
    | nil => rfl
    | cons y ys =>
      simp only [chListCmp]
      rw [ordering_swap_then, ← natCompare_swap, ← ih]

theorem ordering_bne_gt_iff {o : Ordering} :
    (o != Ordering.gt) = true ↔ o ≠ Ordering.gt := by
  cases o <;> decide

theorem cmpSchemaFiles_swap (a b : String × SchemaItem) :
    cmpSchemaFiles a b = (cmpSchemaFiles b a).swap := by
  obtain ⟨pa, ia⟩ := a
  obtain ⟨pb, ib⟩ := b
  cases ia <;> cases ib <;>
    simp only [cmpSchemaFiles, ordering_swap_then, pathCmp,
      SchemaDataType.cmp] <;>
    rw [← chListCmp_swap] <;>
    first
      | rfl
      | (rw [← natCompare_swap])

theorem cmpSchemaFiles_trans {a b c : String × SchemaItem}
    (hab : cmpSchemaFiles a b ≠ Ordering.gt)
    (hbc : cmpSchemaFiles b c ≠ Ordering.gt) :
    cmpSchemaFiles a c ≠ Ordering.gt := by
  obtain ⟨pa, ia⟩ := a
  obtain ⟨pb, ib⟩ := b
  obtain ⟨pc, ic⟩ := c
  cases ia <;> cases ib <;> cases ic <;>
    simp only [cmpSchemaFiles, SchemaDataType.cmp] at hab hbc ⊢ <;>
    rw [ordering_then_ne_gt] at hab hbc ⊢
  · exact Or.inr ⟨rfl, chListCmp_trans _ _ _
      (hab.resolve_left (by simp)).2 (hbc.resolve_left (by simp)).2⟩
  · exact Or.inl rfl
  · exact absurd hbc (by simp)
  · exact Or.inl rfl
  · exact absurd hab (by simp)
  · exact absurd hab (by simp)
  · exact absurd hbc (by simp)
  · rename_i x y z
    rcases hab with hab | ⟨hab1, hab2⟩
    · rcases hbc with hbc | ⟨hbc1, hbc2⟩
      · exact Or.inl (Nat.compare_eq_lt.mpr
          (Nat.lt_trans (Nat.compare_eq_lt.mp hab)
            (Nat.compare_eq_lt.mp hbc)))
      · exact Or.inl (Nat.compare_eq_lt.mpr
          (Nat.compare_eq_eq.mp hbc1 ▸ Nat.compare_eq_lt.mp hab))
    · rcases hbc with hbc | ⟨hbc1, hbc2⟩
      · exact Or.inl (Nat.compare_eq_lt.mpr
          (Nat.compare_eq_eq.mp hab1 ▸ Nat.compare_eq_lt.mp hbc))
      · exact Or.inr ⟨by
          rw [Nat.compare_eq_eq] at hab1 hbc1 ⊢
          omega, chListCmp_trans _ _ _ hab2 hbc2⟩

/-- Claim C9: `load_from_dir` returns the parsed files in a deterministic
total order — the output is a permutation of the input in which every
`Schema` (version-marker) item precedes every `Data` item, `Data` items
are ordered by their `ty` (Enum < Expression < Struct < Settings <
Object, via the declaration-order rank), and items equal under these keys
are ordered by file path. -/
theorem load_from_dir_deterministic_order
    (files : List (String × SchemaItem)) :
    (load_from_dir files).Perm files ∧
      List.Pairwise (fun a b =>
        (∀ v, b.2 = SchemaItem.schema v → ∃ w, a.2 = SchemaItem.schema w) ∧
        (∀ x y, a.2 = SchemaItem.data x → b.2 = SchemaItem.data y →
          x.ty.rank ≤ y.ty.rank ∧
            (x.ty = y.ty → pathCmp a.1 b.1 ≠ Ordering.gt)) ∧
        (∀ v w, a.2 = SchemaItem.schema v → b.2 = SchemaItem.schema w →
          pathCmp a.1 b.1 ≠ Ordering.gt)) (load_from_dir files) := by
  have htrans : ∀ (a b c : String × SchemaItem),
      (cmpSchemaFiles a b != Ordering.gt) = true →
      (cmpSchemaFiles b c != Ordering.gt) = true →
      (cmpSchemaFiles a c != Ordering.gt) = true := by
    intro a b c hab hbc
    rw [ordering_bne_gt_iff] at hab hbc ⊢
    exact cmpSchemaFiles_trans hab hbc
  have htotal : ∀ (a b : String × SchemaItem),
      ((cmpSchemaFiles a b != Ordering.gt) ||
        (cmpSchemaFiles b a != Ordering.gt)) = true := by
    intro a b
    rw [Bool.or_eq_true, ordering_bne_gt_iff, ordering_bne_gt_iff]
    by_cases h : cmpSchemaFiles b a = Ordering.gt
    · left
      rw [cmpSchemaFiles_swap, h]
      simp [Ordering.swap]
    · exact Or.inr h
  constructor
  · exact List.mergeSort_perm files _
  · have hsorted := List.sorted_mergeSort htrans htotal files
    refine List.Pairwise.imp ?_ hsorted
    intro a b hle
    rw [ordering_bne_gt_iff] at hle
    obtain ⟨pa, ia⟩ := a
    obtain ⟨pb, ib⟩ := b
    cases ia <;> cases ib <;>
      simp only [cmpSchemaFiles, SchemaDataType.cmp] at hle <;>
      rw [ordering_then_ne_gt] at hle
    · refine ⟨fun v hv => ⟨_, rfl⟩, fun x y hx hy => by simp at hx, ?_⟩
      intro v w _ _
      exact (hle.resolve_left (by simp)).2
    · exact ⟨fun v hv => by simp at hv, fun x y hx hy => by simp at hx,
        fun v w _ hw => by simp at hw⟩
    · exact absurd hle (by simp)
    · rename_i x y
      refine ⟨fun v hv => by simp at hv, ?_, fun v w hv _ => by simp at hv⟩
      intro x2 y2 hx2 hy2
      injection hx2 with h1
      injection hy2 with h2
      subst h1
      subst h2
      constructor
      · rcases hle with h | ⟨h, _⟩
        · exact Nat.le_of_lt (Nat.compare_eq_lt.mp h)
        · exact Nat.le_of_eq (Nat.compare_eq_eq.mp h)
      · intro hty
        rcases hle with h | ⟨_, h⟩
        · rw [hty, Nat.compare_eq_lt] at h
          omega
        · exact h

/-!
## Validation diagnostics (`src/diagnostic/src/diagnostic.rs`,
generated Layout validation from `src/eh_codegen/src/codegen/structs.rs`
301-305, save loop from `src/eh_mod_dev/src/database.rs` 363-417)
-/

/-- Diagnostic kinds (diagnostic.rs 4-14). The numeric payloads of the
bounds variants are `f64` in the source and are irrelevant to the claims,
so they are omitted; the Layout variant carries its length. -/
inductive DiagnosticKind where
  | obsoleteField
  | valueTooSmall
  | valueTooLarge
  | layoutNotSquare (length : Nat)
deriving DecidableEq

/-- Square check emitted for `Layout` fields (structs.rs 302): the
generated code tests `sqrt(len as f32).floor().powi(2) == len as f32`,
i.e. that the length is a perfect square (exact for lengths in `f32`'s
exactly-representable integer range, which covers all real layouts);
embedded as the perfect-square predicate. -/
def layoutLenIsSquare (n : Nat) : Bool :=
  (List.range (n + 1)).any (fun k => k * k == n)

/-- A generated record with one `Layout`-typed member (the generated field
type for Layout is `String`, structs.rs 637-639). -/
structure LayoutRecord where
  layout : String
deriving DecidableEq

/-- Generated `validate` body for the Layout member (structs.rs 301-305):
emit `DiagnosticKind::layout_not_square(len)` when the length is not a
perfect square. The diagnostic-path bookkeeping of `ctx.enter` does not
affect which diagnostics are emitted and is omitted; the emitted list is
returned. String length is counted in characters (equal to the source's
byte length for ASCII content). -/
def LayoutRecord.validate (r : LayoutRecord) : List DiagnosticKind :=
  if layoutLenIsSquare r.layout.length then []
  else [DiagnosticKind.layoutNotSquare r.layout.length]

/-- Embeds the per-item portion of the save pass (database.rs 363-417):
for each record, panic if its file name was already saved (modelling both
`ctx.enter_new`'s duplicate-context panic and the `saved_files` check),
otherwise run its validation into the per-file diagnostic context, then
serialize it and queue the bytes for writing — unconditionally, whatever
the diagnostics were. Returns the diagnostic context (file name to
diagnostics) and the queued files. -/
def saveItems {ι : Type} (validate : ι → List DiagnosticKind)
    (serialize : ι → String) (fileName : ι → String) :
    List ι → List String →
    Option (List (String × List DiagnosticKind) × List (String × String))
  | [], _ => some ([], [])
  | item :: rest, saved =>
    let fn := fileName item
    if saved.contains fn then none
    else
      match saveItems validate serialize fileName rest (fn :: saved) with
      | none => none
      | some (ctx, files) =>
        some ((fn, validate item) :: ctx, (fn, serialize item) :: files)

/-- Claim C10: validating a record whose Layout field has content length 8
emits exactly one `LayoutNotSquare` diagnostic carrying length 8, and the
save pass still serializes and queues that record for writing; in general
the files produced by a successful save pass are exactly the serialized
forms of all its records, independent of any validation diagnostics. -/
theorem layout_not_square_diagnostic :
    LayoutRecord.validate ⟨"abcdefgh"⟩ =
        [DiagnosticKind.layoutNotSquare 8] ∧
      saveItems LayoutRecord.validate (fun r => r.layout)
          (fun _ => "auto/Layout_1.json") [⟨"abcdefgh"⟩] [] =
        some ([("auto/Layout_1.json", [DiagnosticKind.layoutNotSquare 8])],
          [("auto/Layout_1.json", "abcdefgh")]) ∧
      ∀ (ι : Type) (validate : ι → List DiagnosticKind)
        (serialize : ι → String) (fileName : ι → String) (items : List ι)
        (saved : List String) ctx files,
        saveItems validate serialize fileName items saved =
          some (ctx, files) →
        files.map Prod.fst = items.map fileName ∧
          files.map Prod.snd = items.map serialize := by
  refine ⟨by decide, by decide, ?_⟩
  intro ι validate serialize fileName items
  induction items with
  | nil =>
    intro saved ctx files h
    simp only [saveItems, Option.some_inj, Prod.mk.injEq] at h
    rw [← h.2]
    simp
  | cons item rest ih =>
    intro saved ctx files h
    simp only [saveItems] at h
    split at h
    · exact absurd h (by simp)
    · split at h
      · exact absurd h (by simp)
      · rename_i ctx2 files2 heq
        rw [Option.some_inj, Prod.mk.injEq] at h
        obtain ⟨h1, h2⟩ := h
        rw [← h2]
        obtain ⟨i1, i2⟩ := ih (fileName item :: saved) ctx2 files2 heq
        simp only [List.map_cons, i1, i2, List.cons.injEq, true_and]

/-- Witness for C10: the general no-blocking conjunct applied to the
concrete one-record save pass with the length-8 layout record. -/
theorem layout_not_square_diagnostic_witness :
    saveItems LayoutRecord.validate (fun r => r.layout)
        (fun _ => "auto/Layout_1.json") [⟨"abcdefgh"⟩] [] =
      some ([("auto/Layout_1.json", [DiagnosticKind.layoutNotSquare 8])],
        [("auto/Layout_1.json", "abcdefgh")]) ∧
    [("auto/Layout_1.json", "abcdefgh")].map Prod.fst =
        [(⟨"abcdefgh"⟩ : LayoutRecord)].map (fun _ => "auto/Layout_1.json") ∧
      [("auto/Layout_1.json", "abcdefgh")].map Prod.snd =
        [(⟨"abcdefgh"⟩ : LayoutRecord)].map (fun r => r.layout) :=
  ⟨by decide,
    layout_not_square_diagnostic.2.2 LayoutRecord LayoutRecord.validate
      (fun r => r.layout) (fun _ => "auto/Layout_1.json") [⟨"abcdefgh"⟩] []
      [("auto/Layout_1.json", [DiagnosticKind.layoutNotSquare 8])]
      [("auto/Layout_1.json", "abcdefgh")] (by decide)⟩
